import Mathlib

/-!
Verification of the biznet-analyzer network core (`app/network_model.py`,
`app/logic.py`) against its natural-language specification.

Modelling conventions:
* Python dicts are insertion-ordered; they are embedded as association lists
  `List (String × α)` with lookup returning the first match, assignment
  updating the first occurrence in place (appending when the key is new), and
  deletion removing the first occurrence.
* Python floats are embedded as exact rationals `ℚ`.  `round(x, k)` is
  embedded as half-up rounding on rationals (`roundTo`); no claim depends on
  the half-even tie behaviour of IEEE `round`.
* Python `while` loops are embedded as fuel-based recursion with fuel chosen
  large enough that it is never exhausted on the loop's actual reachable
  states (each choice is justified in a comment at the definition).
* `datetime.now()`-derived strings are modelled as an explicit `stamp`
  argument to the operation that uses them.
-/

set_option maxRecDepth 10000

namespace BizNet

/-! ### Association-list (Python dict) primitives -/

/-- First-match lookup, mirroring Python dict access on an insertion-ordered
dict with unique keys. -/
def alookup {α : Type} : List (String × α) → String → Option α
  | [], _ => none
  | (k', v) :: t, k => if k' = k then some v else alookup t k

/-- Dict assignment `d[k] = v`: replace the first binding in place, append a
new binding at the end when the key is absent. -/
def aupd {α : Type} : List (String × α) → String → α → List (String × α)
  | [], k, v => [(k, v)]
  | (k', v') :: t, k, v => if k' = k then (k, v) :: t else (k', v') :: aupd t k v

/-- Dict deletion `del d[k]` (no-op when the key is absent, callers guard). -/
def aerase {α : Type} : List (String × α) → String → List (String × α)
  | [], _ => []
  | (k', v') :: t, k => if k' = k then t else (k', v') :: aerase t k

/-- In-place modification of the value bound to `k` (no-op when absent). -/
def amod {α : Type} : List (String × α) → String → (α → α) → List (String × α)
  | [], _, _ => []
  | (k', v') :: t, k, f => if k' = k then (k, f v') :: t else (k', v') :: amod t k f

/-- The key list of a dict, in insertion order. -/
def akeys {α : Type} (l : List (String × α)) : List String := l.map (·.1)

/-! ### Decimal-representation injectivity

`_generate_unique_id` appends `_1`, `_2`, … to a base id until the result is
fresh; to prove that the result really is fresh for an arbitrary store we need
that distinct counters produce distinct strings, i.e. that `Nat.repr` is
injective.  Mathlib 4.14 does not provide this, so we derive it from a
characterisation of `Nat.toDigitsCore`. -/

/-- Reference big-endian decimal digit list (most significant first). -/
def decDigits (n : ℕ) : List Char :=
  if h : n < 10 then [Nat.digitChar n]
  else decDigits (n / 10) ++ [Nat.digitChar (n % 10)]
  decreasing_by exact Nat.div_lt_self (by omega) (by omega)

/-! ### Data model (`BusinessNetwork` from `app/network_model.py`) -/

/-- A node record: `parents`, `value`, and the engine-computed fields, exactly
the keys `add_node` initialises.  Arbitrary caller-supplied extra properties
are not modelled (no claim mentions them). -/
structure NodeRec where
  parents : List String
  value : ℚ
  depth : ℕ
  children_count : ℕ
  total_children : ℕ
  is_chokepoint : Bool
  suggested_child_count : ℕ
  needed_children : ℕ
  profit : ℚ
  criticality : ℚ
deriving DecidableEq

/-- Adjacency list of one source node: `(target, capacity)` pairs. -/
abbrev EdgeList := List (String × ℚ)

/-- The whole network: ordered node store, adjacency graph, settings, cached
`max_depth`.  The persistence directory bookkeeping of `__init__` is
I/O-only and not modelled. -/
structure Network where
  nodes : List (String × NodeRec)
  graph : List (String × EdgeList)
  min_children_threshold : ℕ
  max_depth : ℕ
deriving DecidableEq

def nodeIds (net : Network) : List String := akeys net.nodes

/-- `self.graph.get(k, [])` / defaultdict read access. -/
def graphGet (g : List (String × EdgeList)) (k : String) : EdgeList :=
  (alookup g k).getD []

/-- `self.graph[k].append e`, creating the entry when absent (defaultdict). -/
def gpush : List (String × EdgeList) → String → (String × ℚ) → List (String × EdgeList)
  | [], k, e => [(k, [e])]
  | (k', es) :: t, k, e => if k' = k then (k, es ++ [e]) :: t else (k', es) :: gpush t k e

/-- `if k not in self.graph: self.graph[k] = []`. -/
def gensure (g : List (String × EdgeList)) (k : String) : List (String × EdgeList) :=
  if (alookup g k).isSome then g else g ++ [(k, [])]

def DEFAULT_NODE_VALUE : ℚ := 1000

/-- Floor of a rational, written computationally (`Int.fdiv` is floor
division) so that concrete witnesses reduce in the kernel. -/
def qfloor (q : ℚ) : ℤ := q.num.fdiv q.den

/-- `round(q, k)` on exact rationals (half-up; see file header). -/
def roundTo (k : ℕ) (q : ℚ) : ℚ := (qfloor (q * (10 : ℚ) ^ k + 1 / 2) : ℚ) / (10 : ℚ) ^ k

/-! ### `_generate_unique_id` -/

/-- The candidate tried at counter `i`: the base id itself first, then
`base_1`, `base_2`, …. -/
def candidate (base : String) (i : ℕ) : String :=
  if i = 0 then base else base ++ "_" ++ Nat.repr i

def genUniqueAux (keys : List String) (base : String) : ℕ → ℕ → String
  | 0, i => candidate base i
  | f + 1, i =>
    if candidate base i ∈ keys then genUniqueAux keys base f (i + 1) else candidate base i

/-- `_generate_unique_id`: first candidate not currently a node id.  The
source's unbounded `while` loop always terminates because the candidates are
pairwise distinct, so among the first `len(nodes) + 1` of them one is fresh;
the fuel is chosen accordingly and `generate_unique_id_fresh` proves it
suffices. -/
def generate_unique_id (net : Network) (base : String) : String :=
  genUniqueAux (nodeIds net) base (net.nodes.length + 1) 0

/-! ### Read helpers and metric calculators -/

/-- `get_direct_children`: targets of the outgoing edges. -/
def get_direct_children (net : Network) (nid : String) : List String :=
  (graphGet net.graph nid).map (·.1)

/-- The node store projected to the data the metric passes read from it:
key order and `parents` (the passes never read computed fields of other
nodes, only structure, `value`, and the threshold). -/
def idsParents (net : Network) : List (String × List String) :=
  net.nodes.map (fun p => (p.1, p.2.parents))

/-- The node store projected to `value`. -/
def valueMap (net : Network) : List (String × ℚ) :=
  net.nodes.map (fun p => (p.1, p.2.value))

/-- Total number of `(target, capacity)` entries in the adjacency lists;
used only to size BFS fuel. -/
def totalEdgesG (g : List (String × EdgeList)) : ℕ := (g.map (·.2.length)).sum

/-- The `while queue` body of `get_all_descendants`: pop, add unseen nodes,
push their unseen children at the back.  Every node enters `acc` at most once
and children are pushed only when their parent enters `acc`, so the number of
queue insertions is at most `totalEdgesG` beyond the initial queue; a fuel of
`2 * totalEdgesG + ids + 2` therefore can never run out. -/
def descLoop (ids : List String) (g : List (String × EdgeList)) :
    ℕ → List String → List String → List String
  | 0, _, acc => acc
  | _ + 1, [], acc => acc
  | f + 1, c :: q, acc =>
    if c ∈ ids ∧ c ∉ acc then
      let acc' := acc ++ [c]
      descLoop ids g f (q ++ ((graphGet g c).map (·.1)).filter (fun d => d ∉ acc')) acc'
    else descLoop ids g f q acc

/-- `get_all_descendants`, returning the visit set as a duplicate-free list
in first-visit order; `ids` is the current node-id list. -/
def get_all_descendants (ids : List String) (g : List (String × EdgeList))
    (nid : String) : List String :=
  if nid ∈ ids then
    descLoop ids g (2 * totalEdgesG g + ids.length + 2) ((graphGet g nid).map (·.1)) []
  else []

/-- `_calculate_profit`: the sum of the `value` of the direct children that
exist in the store (`vm` is the store's value projection), floored at 0 and
rounded to 2 decimals. -/
def calculate_profit (vm : List (String × ℚ)) (g : List (String × EdgeList))
    (nid : String) : ℚ :=
  if (alookup vm nid).isNone then 0
  else
    roundTo 2 (max 0 ((((graphGet g nid).map (·.1)).map
      (fun c => (alookup vm c).getD 0)).sum))

/-- `_calculate_criticality` as a function of the threshold and the node's
stored `children_count` and `depth` (which is exactly what the source reads).
`0.04` is the exact rational `4 / 100`. -/
def calculate_criticality (thr cc depth : ℕ) : ℚ :=
  let needed : ℕ := thr - cc
  if needed = 0 then 0
  else
    let need_ratio : ℚ := min 1 ((needed : ℚ) / ((max 1 thr : ℕ) : ℚ))
    let depth_factor : ℚ := 1 / (1 + (4 / 100) * (depth : ℚ))
    roundTo 3 (max 0 (min 1 (need_ratio * depth_factor)))

/-- `_calculate_suggested_child_count`: flat policy, just the threshold. -/
def calculate_suggested_child_count (thr : ℕ) (_nid : String) : ℕ := thr

/-! ### `_update_metrics`: depth pass (Kahn topological propagation) -/

/-- State of the topological depth loop: pending queue, remaining in-degrees
(`Int`, the source lets them go negative), tentative `node_depths`, depths
already assigned to drained nodes, the drained set, and the running max. -/
structure KState where
  queue : List String
  indeg : List (String × Int)
  ndepth : List (String × ℕ)
  assigned : List (String × ℕ)
  processed : List String
  maxd : ℕ
deriving DecidableEq

/-- In-degree initialisation and root seeding, iterating the node store in
insertion order (parents are already cleaned at this point, see
`update_metrics`); `ip` is the store's id/parents projection. -/
def kahnInit (ip : List (String × List String)) : KState :=
  let roots := (ip.filter (fun p => p.2.isEmpty)).map (·.1)
  { queue := roots
    indeg := ip.map (fun p => (p.1, (p.2.length : Int)))
    ndepth := roots.map (fun r => (r, 0))
    assigned := []
    processed := []
    maxd := 0 }

/-- One child update inside the drain step: decrement the in-degree, raise the
tentative depth to `d + 1`, enqueue on reaching exactly zero.  Children that
are not node ids are skipped (`child_id in in_degree`). -/
def kahnChild (d : ℕ) (st : KState) (c : String) : KState :=
  match alookup st.indeg c with
  | none => st
  | some v =>
    let st' := { st with
      indeg := aupd st.indeg c (v - 1)
      ndepth := aupd st.ndepth c (max ((alookup st.ndepth c).getD 0) (d + 1)) }
    if v - 1 = 0 then { st' with queue := st'.queue ++ [c] } else st'

/-- The `while nodes_to_process` drain loop.  Each iteration pops one queue
element; a string is enqueued at most once as a root and at most once when its
in-degree first reaches zero (in-degrees strictly decrease), so at most
`2 * len(nodes)` pops ever happen and the fuel below never runs out. -/
def kahnLoop (g : List (String × EdgeList)) : ℕ → KState → KState
  | 0, st => st
  | f + 1, st =>
    match h : st.queue with
    | [] => st
    | n :: q =>
      let st1 := { st with queue := q }
      if n ∈ st1.processed then kahnLoop g f st1
      else
        let d := (alookup st1.ndepth n).getD 0
        let st2 := { st1 with
          processed := st1.processed ++ [n]
          assigned := aupd st1.assigned n d
          maxd := max st1.maxd d }
        kahnLoop g f (((graphGet g n).map (·.1)).foldl (kahnChild d) st2)

/-! ### `_update_metrics`: recursive fallback `_calculate_depth` -/

mutual

/-- `_calculate_depth`, embedded as mutual fuel-based recursion with its
parent fold.  `visited` is the current recursion path, `cache` the
`_current_depth_calculation` markers; both exactly mirror the source's
mutation discipline (add-then-remove on `visited`, persistent writes to the
cache).  Fuel bounds the recursion depth, which the `visited` guard keeps at
most `len(nodes) + 1`, so `len(nodes) + 2` can never run out. -/
def calcDepth (ip : List (String × List String)) :
    ℕ → List String → List (String × ℕ) → String → ℕ × List (String × ℕ)
  | 0, _, cache, _ => (0, cache)
  | f + 1, visited, cache, nid =>
    match alookup ip nid with
    | none => (0, cache)
    | some parents =>
      let valid := parents.filter (fun p => (alookup ip p).isSome)
      if valid.isEmpty then (0, cache)
      else if nid ∈ visited then (ip.length + 1, cache)
      else
        let r := calcDepthFold ip f (visited ++ [nid]) cache valid
        let depth := if 0 ≤ r.1 then (r.1 + 1).toNat else 0
        (depth, aupd r.2 nid depth)
termination_by f _ _ _ => (f, 0)

/-- The `for parent_id in valid_parents` fold of `_calculate_depth`,
accumulating `max_parent_depth` (an `Int`, starting at `-1`) and threading
the cache. -/
def calcDepthFold (ip : List (String × List String)) :
    ℕ → List String → List (String × ℕ) → List String → Int × List (String × ℕ)
  | _, _, cache, [] => (-1, cache)
  | f, visited, cache, p :: ps =>
    match alookup cache p with
    | some pd =>
      let r := calcDepthFold ip f visited cache ps
      (max r.1 (pd : Int), r.2)
    | none =>
      let rp := calcDepth ip f visited cache p
      let r := calcDepthFold ip f visited rp.2 ps
      (max r.1 (rp.1 : Int), r.2)
termination_by f _ _ ps => (f, ps.length + 1)

end

/-! ### `_update_metrics` assembled -/

/-- The parent clean-up at the top of `_update_metrics`:
`valid_parents = [p for p in parents if p in self.nodes]` written back into
every node (key set taken from the store before the loop; it does not change
during the loop). -/
def cleanNode (net : Network) (nd : NodeRec) : NodeRec :=
  { nd with parents := nd.parents.filter (fun q => (alookup net.nodes q).isSome) }

def cleanParents (net : Network) : Network :=
  { net with nodes := net.nodes.map (fun p => (p.1, cleanNode net p.2)) }

/-- The whole depth phase: Kahn drain, then the recursive fallback over the
nodes the drain did not reach (the source iterates that left-over `set` in
unspecified order; the per-node results are independent — the cache is
cleared between nodes — so store order is used).  Returns the final depth of
every node id together with `max_depth`. -/
def computeDepths (ip : List (String × List String)) (g : List (String × EdgeList)) :
    List (String × ℕ) × ℕ :=
  let st := kahnLoop g (2 * ip.length + 1) (kahnInit ip)
  let unproc := (ip.map (·.1)).filter (fun nid => nid ∉ st.processed)
  unproc.foldl (fun acc nid =>
      let r := calcDepth ip (ip.length + 2) [] [] nid
      (aupd acc.1 nid r.1, max acc.2 r.1))
    (st.assigned, st.maxd)

/-- Metric passes 1–4 for one node, reading only the cleaned structure
(threshold, id list, value map, graph) and the depth map. -/
def setNodeFields (thr : ℕ) (ids : List String) (vm : List (String × ℚ))
    (g : List (String × EdgeList)) (dm : List (String × ℕ)) (nid : String)
    (nd : NodeRec) : NodeRec :=
  let depth := (alookup dm nid).getD 0
  let cc := (graphGet g nid).length
  let needed := thr - cc
  { nd with
    depth := depth
    children_count := cc
    total_children := (get_all_descendants ids g nid).length
    profit := calculate_profit vm g nid
    suggested_child_count := calculate_suggested_child_count thr nid
    needed_children := needed
    is_chokepoint := decide (0 < needed)
    criticality := calculate_criticality thr cc depth }

/-- `_update_metrics`: parent clean-up, depth phase, then the field passes.
(`recompute()` in the specification's vocabulary.) -/
def update_metrics (net : Network) : Network :=
  if net.nodes.isEmpty then { net with max_depth := 0 }
  else
    let net1 := cleanParents net
    let r := computeDepths (idsParents net1) net1.graph
    { net1 with
      max_depth := r.2
      nodes := net1.nodes.map (fun p => (p.1,
        setNodeFields net1.min_children_threshold (akeys net1.nodes) (valueMap net1)
          net1.graph r.1 p.1 p.2)) }

/-! ### Mutating operations -/

/-- A freshly initialised node record, as written by `add_node` and the
subtree importer (identical field initialisers in both). -/
def freshNode (thr : ℕ) (value : ℚ) (parents : List String) : NodeRec :=
  { parents := parents
    value := value
    depth := 0
    children_count := 0
    total_children := 0
    is_chokepoint := false
    suggested_child_count := thr
    needed_children := 0
    profit := 0
    criticality := 0 }

/-- `add_node(parent_id, node_id, value=…)`.  `none` models Python `None`
(the caller in `logic.py` also maps empty strings to `None` for the id); an
absent or empty `value` is modelled as `none` and defaults.  The
"invalid number format" error path (a non-numeric string) is not
representable with `Option ℚ` and is not modelled. -/
def addNodeCore (net : Network) (parent_id node_id : Option String) (value : Option ℚ) :
    Network × String :=
  let final_id :=
    match node_id with
    | none =>
      match parent_id with
      | none => "root"
      | some pid =>
        generate_unique_id net (pid ++ "." ++ Nat.repr ((graphGet net.graph pid).length + 1))
    | some nid => generate_unique_id net nid
  let node_value := value.getD DEFAULT_NODE_VALUE
  let net1 := { net with
    nodes := aupd net.nodes final_id (freshNode net.min_children_threshold node_value [])
    graph := gensure net.graph final_id }
  let net2 :=
    match parent_id with
    | none => net1
    | some pid =>
      { net1 with
        graph := gpush net1.graph pid (final_id, 1)
        nodes := amod net1.nodes final_id (fun nd => { nd with parents := nd.parents ++ [pid] }) }
  (update_metrics net2, final_id)

def add_node (net : Network) (parent_id node_id : Option String) (value : Option ℚ) :
    Except String (Network × String) :=
  if parent_id.isNone ∧ ¬ net.nodes.isEmpty then
    .error "Cannot add multiple root nodes. Specify a parent_id."
  else
    match parent_id with
    | some pid =>
      if (alookup net.nodes pid).isNone then .error "Parent node does not exist"
      else .ok (addNodeCore net (some pid) node_id value)
    | none => .ok (addNodeCore net none node_id value)

/-- `remove_node`: leaf-only removal, unlinking the node from the adjacency
lists of its recorded parents. -/
def remove_node (net : Network) (nid : String) : Except String Network :=
  if (alookup net.nodes nid).isNone then .error "Node not found"
  else if graphGet net.graph nid ≠ [] then
    .error "Cannot remove node with children. Remove children first."
  else
    let ps := ((alookup net.nodes nid).map (·.parents)).getD []
    let g := ps.foldl (fun g p =>
        if (alookup g p).isSome then amod g p (fun es => es.filter (fun e => e.1 ≠ nid)) else g)
      net.graph
    .ok (update_metrics { net with nodes := aerase net.nodes nid, graph := aerase g nid })

/-! ### `bulk_remove_nodes` (from `app/logic.py`) -/

/-- Result of a bulk delete.  `noIds` is the empty-request error,
`validationFailed failed` the all-or-nothing rejection (the source dict also
carries `deleted_count: 0` there), `completed deleted failed` the
post-validation outcome (reported as success exactly when `failed` is
empty).  Persistence is I/O and not modelled. -/
inductive BulkOutcome
  | noIds
  | validationFailed (failed : List (String × String))
  | completed (deleted : ℕ) (failed : List (String × String))
deriving DecidableEq

/-- `bulk_remove_nodes`: validate every target (existence, leaf status)
against the untouched network, then delete only if all passed. -/
def bulkFailed (net : Network) (node_ids : List String) : List (String × String) :=
  node_ids.foldl (fun fs nid =>
    match alookup net.nodes nid with
    | none => aupd fs nid "Node not found"
    | some _ => if graphGet net.graph nid ≠ [] then aupd fs nid "Node has children" else fs) []

def bulk_remove_nodes (net : Network) (node_ids : List String) : BulkOutcome × Network :=
  if node_ids.isEmpty then (.noIds, net)
  else
    let failed := bulkFailed net node_ids
    if ¬ failed.isEmpty then (.validationFailed failed, net)
    else
      let r := node_ids.foldl (fun acc nid =>
        match remove_node acc.2 nid with
        | .ok n' => ((acc.1.1 + 1, acc.1.2), n')
        | .error e => ((acc.1.1, aupd acc.1.2 nid e), acc.2)) ((0, failed), net)
      (.completed r.1.1 r.1.2, r.2)

/-! ### `add_subtree_from_data` -/

/-- An import fragment: the parsed `subtree_data` dict.  `none` models a
missing `"nodes"`/`"graph"` key.  Fragment node payloads are modelled by
their optional `value` (missing/empty ⇒ default); other attribute keys pass
through opaquely in the source and are not modelled.  Edge capacities may be
`null` in the JSON, hence `Option ℚ`. -/
structure Fragment where
  fnodes : Option (List (String × Option ℚ))
  fgraph : Option (List (String × List (String × Option ℚ)))

/-- State threaded through the import's breadth-first node pass. -/
structure ImpState where
  net : Network
  mapping : List (String × String)
  added : List String
  processed : List String
  queue : List String

/-- One full pop of the import BFS queue (`while queue` body of pass 1). -/
def importStep (fns : List (String × Option ℚ))
    (fg : List (String × List (String × Option ℚ))) (roots : List String)
    (parent_id pfx : String) (st : ImpState) (o : String) (q : List String) : ImpState :=
  let st := { st with queue := q }
  if o ∈ st.processed ∨ (alookup fns o).isNone then st
  else
    let st := { st with processed := st.processed ++ [o] }
    let node_value := ((alookup fns o).getD none).getD DEFAULT_NODE_VALUE
    let new_id := generate_unique_id st.net (pfx ++ o)
    let isRoot := o ∈ roots
    let net := { st.net with
      nodes := aupd st.net.nodes new_id
        (freshNode st.net.min_children_threshold node_value (if isRoot then [parent_id] else []))
      graph := gensure st.net.graph new_id }
    let net := if isRoot then { net with graph := gpush net.graph parent_id (new_id, 1) } else net
    let enq := (((alookup fg o).getD []).map (·.1)).filter
      (fun c => c ∈ akeys fns ∧ c ∉ st.processed)
    { st with
      net := net
      mapping := st.mapping ++ [(o, new_id)]
      added := st.added ++ [new_id]
      queue := st.queue ++ enq }

/-- Pass 1 of the import: breadth-first from the fragment-local roots.  Each
queue insertion is either an initial root or triggered by one fragment edge
occurrence from a freshly processed node, so insertions (hence pops) never
exceed `roots.length + Σ |fragment adjacency lists|`; the fuel used in
`add_subtree_from_data` is that bound plus one and can never run out. -/
def importLoop (fns : List (String × Option ℚ))
    (fg : List (String × List (String × Option ℚ))) (roots : List String)
    (parent_id pfx : String) : ℕ → ImpState → ImpState
  | 0, st => st
  | f + 1, st =>
    match st.queue with
    | [] => st
    | o :: q => importLoop fns fg roots parent_id pfx f (importStep fns fg roots parent_id pfx st o q)

/-- One fragment edge of pass 2: recreate it between the mapped endpoints
(when both were minted) and record the parent link (deduplicated) on the
target.  The source looks the target up after pushing the edge; only the
graph changed in between, so the lookup is against the same node store. -/
def importEdgeStep (mapping : List (String × String)) (src_new : String)
    (net : Network) (tc : String × Option ℚ) : Network :=
  match alookup mapping tc.1 with
  | none => net
  | some new_target =>
    match alookup net.nodes new_target with
    | none => { net with graph := gpush net.graph src_new (new_target, tc.2.getD 1) }
    | some ntd =>
      if src_new ∈ ntd.parents then
        { net with graph := gpush net.graph src_new (new_target, tc.2.getD 1) }
      else
        { net with
          graph := gpush net.graph src_new (new_target, tc.2.getD 1)
          nodes := amod net.nodes new_target
            (fun nd => { nd with parents := nd.parents ++ [src_new] }) }

/-- Pass 2 of the import: every fragment edge whose endpoints were both
minted, in mapping (= insertion) order. -/
def importEdges (fg : List (String × List (String × Option ℚ)))
    (mapping : List (String × String)) (net : Network) : Network :=
  mapping.foldl (fun net om =>
    ((alookup fg om.1).getD []).foldl (importEdgeStep mapping om.2) net) net

/-- Fragment-local roots: fragment nodes with no in-fragment parent (the
`subtree_roots` computation of `add_subtree_from_data`). -/
def fragLocalRoots (fns : List (String × Option ℚ))
    (fg : List (String × List (String × Option ℚ))) : List String :=
  let ids := akeys fns
  let withParents := (fg.map (fun p => (p.2.map (·.1)).filter (fun t => t ∈ ids))).flatten
  ids.filter (fun nid => nid ∉ withParents)

/-- `add_subtree_from_data(parent_id, subtree_data)`.  `stamp` models the
`datetime.now()`-derived fragment of the collision-avoidance prefix.  The
source computes the local roots by iterating a Python `set` in unspecified
order; key order of the fragment node map is used here (no claim depends on
the order of the root list). -/
def add_subtree_from_data (net : Network) (parent_id : String) (frag : Fragment)
    (stamp : String) : Except String (Network × List String) :=
  if (alookup net.nodes parent_id).isNone then .error "Parent node not found."
  else
    match frag.fnodes, frag.fgraph with
    | none, _ => .error "Invalid subtree data format. Missing nodes or graph."
    | some _, none => .error "Invalid subtree data format. Missing nodes or graph."
    | some fns, some fg =>
      if fns.isEmpty then .ok (net, [])
      else
        let roots := fragLocalRoots fns fg
        if roots.isEmpty then .error "Subtree seems to have a cycle or no clear roots."
        else
          let pfx := parent_id ++ "_sub" ++ stamp ++ "_"
          let fuel := roots.length + (fg.map (·.2.length)).sum + 1
          let st := importLoop fns fg roots parent_id pfx fuel
            { net := net, mapping := [], added := [], processed := [], queue := roots }
          .ok (update_metrics (importEdges fg st.mapping st.net), st.added)

/-! ### Specification-side invariants -/

/-- Spec §3: every listed parent exists in the node store. -/
def ParentsExist (net : Network) : Prop :=
  ∀ p ∈ net.nodes, ∀ q ∈ p.2.parents, q ∈ nodeIds net

/-- Spec §3 / claim C9: `edge(p→c)` exists iff `c`'s parents list contains
`p` (as sets; a target that is not a stored node has no parents list, so the
right side also forces edges to point at stored nodes). -/
def Agrees (net : Network) : Prop :=
  ∀ p c, (∃ cap, (c, cap) ∈ graphGet net.graph p) ↔
    (∃ nd, alookup net.nodes c = some nd ∧ p ∈ nd.parents)

/-- Counting version of the agreement: the number of `p → c` edge entries
equals the multiplicity of `p` in `c`'s parents list. -/
def MAgrees (net : Network) : Prop :=
  ∀ p c, (graphGet net.graph p).countP (fun e => decide (e.1 = c)) =
    (((alookup net.nodes c).map (·.parents)).getD []).count p

/-! ### Example networks (witness/counterexample material) -/

def net0 : Network := { nodes := [], graph := [], min_children_threshold := 2, max_depth := 0 }

/-- Unwrap a successful `add_node` result (examples only use succeeding
calls). -/
def okNet (r : Except String (Network × String)) : Network :=
  match r with
  | .ok p => p.1
  | .error _ => net0

/-- `add(parent=None)` on the empty network: the conventional root. -/
def exRoot : Network := okNet (add_node net0 none none none)

/-- …plus one auto-id child `root.1`. -/
def exTwo : Network := okNet (add_node exRoot (some "root") none none)

/-- …plus a second auto-id child `root.2`. -/
def exThree : Network := okNet (add_node exTwo (some "root") none none)

/-- Root plus a child with negative `value` (legal: `add_node` accepts any
number). -/
def exNeg : Network := okNet (add_node exRoot (some "root") none (some (-100)))

/-- The three-node example plus a child of `root.1` (so `root.1` is no
longer a leaf). -/
def exFour : Network := okNet (add_node exThree (some "root.1") none none)

/-- Per-string validity of a bulk-delete target. -/
def bulkInvalid (net : Network) (nid : String) : Prop :=
  alookup net.nodes nid = none ∨ graphGet net.graph nid ≠ []

instance (net : Network) (nid : String) : Decidable (bulkInvalid net nid) := by
  unfold bulkInvalid
  infer_instance

/-- The reason string the validation loop records for an invalid target. -/
def bulkReason (net : Network) (nid : String) : String :=
  if alookup net.nodes nid = none then "Node not found" else "Node has children"

/-! ### Claim C6 (import scenario) -/

deriving instance DecidableEq for Except

/-- The scenario fragment: 3 nodes, a single local root, and the local
root's id `root.1` duplicating an existing top-level id. -/
def exFrag : Fragment :=
  { fnodes := some [("root.1", none), ("a", some 5), ("b", none)]
    fgraph := some [("root.1", [("a", some 1), ("b", none)])] }

/-- The network produced by the scenario import (under parent `root.2`,
with stamp `00000000`). -/
def exImpNet : Network :=
  match add_subtree_from_data exThree "root.2" exFrag "00000000" with
  | .ok p => p.1
  | .error _ => net0

/-! ### Claim C10 (unreachable fragment nodes are skipped) -/

/-- Reachability inside a fragment: from the fragment-local roots along
in-fragment edges whose targets belong to the fragment's node map (the
specification-side notion the import BFS is measured against). -/
inductive FragReach (fns : List (String × Option ℚ))
    (fg : List (String × List (String × Option ℚ))) (roots : List String) : String → Prop
  | root {o : String} (h : o ∈ roots) : FragReach fns fg roots o
  | step {p o : String} (hp : FragReach fns fg roots p)
      (he : o ∈ ((alookup fg p).getD []).map (·.1)) (ho : o ∈ akeys fns) :
      FragReach fns fg roots o

/-- The loop invariant of the import's node pass (pass 1): soundness of the
queue/processed/mapping sets w.r.t. fragment reachability, plus the shape of
the store extension. -/
def ImpInv (fns : List (String × Option ℚ)) (fg : List (String × List (String × Option ℚ)))
    (roots : List String) (net₀ : Network) (st : ImpState) : Prop :=
  (∀ o ∈ st.queue, FragReach fns fg roots o) ∧
  (∀ e ∈ st.mapping, e.1 ∈ akeys fns ∧ FragReach fns fg roots e.1) ∧
  st.added = st.mapping.map (·.2) ∧
  akeys st.net.nodes = akeys net₀.nodes ++ st.added

/-- A fragment whose nodes `x`, `y` form a 2-cycle not reachable from the
single local root `r`. -/
def exFrag2 : Fragment :=
  { fnodes := some [("r", none), ("x", none), ("y", none)]
    fgraph := some [("r", []), ("x", [("y", none)]), ("y", [("x", none)])] }

/-- The network produced by importing `exFrag2` under `root` of the
one-node example. -/
def exSkipNet : Network :=
  match add_subtree_from_data exRoot "root" exFrag2 "s" with
  | .ok p => p.1
  | .error _ => net0

/-- Decidable edge test: there is an edge `p → c`. -/
def edgeTo (net : Network) (p c : String) : Prop :=
  c ∈ (graphGet net.graph p).map (·.1)

instance (net : Network) (p c : String) : Decidable (edgeTo net p c) := by
  unfold edgeTo
  infer_instance

/-- The parents list of `c` as the store records it (empty when `c` is not
stored). -/
def parentsView (net : Network) (c : String) : List String :=
  ((alookup net.nodes c).map (·.parents)).getD []

/-- `Agrees` in view form. -/
def AgreesV (net : Network) : Prop :=
  ∀ p c, edgeTo net p c ↔ p ∈ parentsView net c

/-- Bounded (decidable) form of the agreement, used to discharge it on
concrete networks. -/
def AgreesB (net : Network) : Prop :=
  (∀ pe ∈ net.graph, ∀ e ∈ graphGet net.graph pe.1, pe.1 ∈ parentsView net e.1) ∧
  (∀ q ∈ net.nodes, ∀ p ∈ q.2.parents, edgeTo net p q.1)

instance (net : Network) : Decidable (AgreesB net) := by
  unfold AgreesB
  infer_instance

/-- The combined dict-validity + structural invariant: unique keys, every
listed parent exists, and the graph/parents agreement. -/
def NetInv (net : Network) : Prop :=
  (nodeIds net).Nodup ∧ (akeys net.graph).Nodup ∧ ParentsExist net ∧ Agrees net

/-- `NetInv` with the agreement in view form. -/
def NetInvV (m : Network) : Prop :=
  (nodeIds m).Nodup ∧ (akeys m.graph).Nodup ∧ ParentsExist m ∧ AgreesV m

/-- A state whose graph and parents lists agree, but where node `c` records
a parent `ghost` that is not itself a stored node (with a matching
`ghost → c` edge). -/
def ghostNet : Network :=
  { nodes := [("r", freshNode 2 1000 []), ("c", freshNode 2 1000 ["ghost"])]
    graph := [("ghost", [("c", 1)]), ("r", [])]
    min_children_threshold := 2
    max_depth := 0 }

/-- `ghostNet` after adding one auto-id node under `r`. -/
def exGhostNet : Network := okNet (add_node ghostNet (some "r") none none)

instance (net : Network) : Decidable (ParentsExist net) := by
  unfold ParentsExist
  infer_instance

/-! ### Correctness of the Kahn depth pass

The loop invariant machinery for `kahnLoop`/`computeDepths`: `pendK` is the
number of parent occurrences not yet drained, `ndvalK` the tentative depth a
node should carry given the drained set, `depthEq` the local depth equation
of the specification. -/

/-- Parent occurrences of `ps` outside the drained list `P`. -/
def pendK (P : List String) (ps : List String) : ℕ :=
  ps.countP (fun q => decide (q ∉ P))

/-- The tentative depth accumulated by `kahnChild` updates: the maximum of
`assigned(q) + 1` over drained parent occurrences `q` (0 when none). -/
def ndvalK (A : List (String × ℕ)) (P : List String) (ps : List String) : ℕ :=
  ps.foldr (fun q m => max (if q ∈ P then (alookup A q).getD 0 + 1 else 0) m) 0

/-- The specification's depth equation at one node, reading parent depths
from the map `A`. -/
def depthEq (A : List (String × ℕ)) (ps : List String) : ℕ :=
  if ps = [] then 0 else (ps.map (fun q => (alookup A q).getD 0)).foldr max 0 + 1

/-- The `kahnLoop` invariant (stated between loop iterations). -/
structure KahnInv (ip : List (String × List String)) (st : KState) : Prop where
  hP : ∀ x ∈ st.processed, x ∈ ip.map (·.1)
  hQ : ∀ x ∈ st.queue, x ∈ ip.map (·.1)
  hPnd : st.processed.Nodup
  hQnd : st.queue.Nodup
  hQP : ∀ x ∈ st.queue, x ∉ st.processed
  hK : akeys st.indeg = ip.map (·.1)
  hAk : akeys st.assigned = st.processed
  hI : ∀ pr ∈ ip, alookup st.indeg pr.1 = some ((pendK st.processed pr.2 : ℕ) : Int)
  hQ0 : ∀ pr ∈ ip, (pr.1 ∈ st.queue ∨ pr.1 ∈ st.processed) ↔ pendK st.processed pr.2 = 0
  hD : ∀ pr ∈ ip, (alookup st.ndepth pr.1).getD 0 = ndvalK st.assigned st.processed pr.2
  hA : ∀ pr ∈ ip, pr.1 ∈ st.processed →
    (∀ q ∈ pr.2, q ∈ st.processed) ∧
    alookup st.assigned pr.1 = some (depthEq st.assigned pr.2)

/-- The invariant of the `kahnChild` fold inside one drain step: `n` is the
node being drained, `d` its assigned depth, `L` its full edge-target list,
`es` the unprocessed suffix of `L`, `P₀`/`A₀` the drained set and depth
assignment before the step. -/
structure KFoldInv (ip : List (String × List String)) (n : String) (d : ℕ)
    (L : List String) (P₀ : List String) (A₀ : List (String × ℕ))
    (es : List String) (st : KState) : Prop where
  hp : st.processed = P₀ ++ [n]
  ha : st.assigned = aupd A₀ n d
  hQ : ∀ x ∈ st.queue, x ∈ ip.map (·.1)
  hQnd : st.queue.Nodup
  hQP : ∀ x ∈ st.queue, x ∉ P₀ ++ [n]
  hK : akeys st.indeg = ip.map (·.1)
  hI : ∀ pr ∈ ip, alookup st.indeg pr.1 =
    some (((pendK (P₀ ++ [n]) pr.2 + es.count pr.1 : ℕ)) : Int)
  hQ0 : ∀ pr ∈ ip, (pr.1 ∈ st.queue ∨ pr.1 ∈ P₀ ++ [n]) ↔
    pendK (P₀ ++ [n]) pr.2 + es.count pr.1 = 0
  hD : ∀ pr ∈ ip, (alookup st.ndepth pr.1).getD 0 =
    if es.count pr.1 < L.count pr.1 then ndvalK (aupd A₀ n d) (P₀ ++ [n]) pr.2
    else ndvalK (aupd A₀ n d) P₀ pr.2
  hC : ∀ c, es.count c ≤ L.count c

/-- Bounded form of the edge/parents multiplicity agreement: quantifying only
over graph keys and recorded parent ids on one side, stored node ids and edge
targets on the other, which makes the check decidable. -/
def MAgreesB (net : Network) : Prop :=
  ∀ p ∈ akeys net.graph ++ (net.nodes.map (fun q => q.2.parents)).flatten,
    ∀ c ∈ akeys net.nodes ++ (net.graph.map (fun pe => pe.2.map (·.1))).flatten,
      (graphGet net.graph p).countP (fun e => decide (e.1 = c)) =
        (((alookup net.nodes c).map (·.parents)).getD []).count p

instance (net : Network) : Decidable (MAgreesB net) := by
  unfold MAgreesB
  infer_instance

/-- Two parentless stored nodes connected by an adjacency edge: the parent
relation is trivially acyclic and every listed parent exists (there are
none), yet the recompute drives depth along the edge. -/
def disNet : Network :=
  { nodes := [("a", freshNode 2 1000 []), ("b", freshNode 2 1000 [])]
    graph := [("a", [("b", 1)])]
    min_children_threshold := 2
    max_depth := 0 }

/-! ### Theorems -/

theorem alookup_isSome_iff {α : Type} (l : List (String × α)) (k : String) :
    (alookup l k).isSome = true ↔ k ∈ akeys l := by
  induction l with
  | nil => simp [alookup, akeys]
  | cons p t ih =>
    obtain ⟨k', v⟩ := p
    by_cases h : k' = k
    · subst h; simp [alookup, akeys]
    · have h' : k ≠ k' := fun hc => h hc.symm
      simp [alookup, akeys, h, h', ih]

theorem alookup_eq_none_iff {α : Type} (l : List (String × α)) (k : String) :
    alookup l k = none ↔ k ∉ akeys l := by
  rw [← alookup_isSome_iff]
  cases alookup l k <;> simp

theorem alookup_mem {α : Type} {l : List (String × α)} {k : String} {v : α}
    (h : alookup l k = some v) : (k, v) ∈ l := by
  induction l with
  | nil => simp [alookup] at h
  | cons p t ih =>
    obtain ⟨k', v'⟩ := p
    by_cases hk : k' = k
    · subst hk
      simp [alookup] at h
      simp [h]
    · simp [alookup, hk] at h
      exact List.mem_cons_of_mem _ (ih h)

/-- Lookup through a key-preserving value map. -/
theorem alookup_mapval {α β : Type} (f : String → α → β) (l : List (String × α)) (k : String) :
    alookup (l.map (fun p => (p.1, f p.1 p.2))) k = (alookup l k).map (f k) := by
  induction l with
  | nil => simp [alookup]
  | cons p t ih =>
    obtain ⟨k', v⟩ := p
    by_cases h : k' = k
    · subst h; simp [alookup]
    · simp [alookup, h, ih]

theorem akeys_mapval {α β : Type} (f : String → α → β) (l : List (String × α)) :
    akeys (l.map (fun p => (p.1, f p.1 p.2))) = akeys l := by
  induction l with
  | nil => rfl
  | cons p t ih => simp only [List.map, akeys] at *; simp [ih]

theorem decDigits_lt {n : ℕ} (h : n < 10) : decDigits n = [Nat.digitChar n] := by
  rw [decDigits]; simp [h]

theorem decDigits_ge {n : ℕ} (h : ¬ n < 10) :
    decDigits n = decDigits (n / 10) ++ [Nat.digitChar (n % 10)] := by
  rw [decDigits]; simp [h]

theorem decDigits_ne_nil (n : ℕ) : decDigits n ≠ [] := by
  rw [decDigits]
  split <;> simp

theorem toDigitsCore_eq_decDigits (f n : ℕ) (ds : List Char) (hf : n < f) :
    Nat.toDigitsCore 10 f n ds = decDigits n ++ ds := by
  induction f generalizing n ds with
  | zero => omega
  | succ f ih =>
    rw [Nat.toDigitsCore, decDigits]
    by_cases h : n < 10
    · have h10 : n / 10 = 0 := Nat.div_eq_of_lt h
      have hm : n % 10 = n := Nat.mod_eq_of_lt h
      simp [h10, h, hm]
    · have h10 : n / 10 ≠ 0 := by
        intro hc
        exact h (by omega : n < 10)
      have hlt : n / 10 < f := by
        have := Nat.div_lt_self (by omega : 0 < n) (by omega : 1 < 10)
        omega
      simp only [h10, if_false, dif_neg h]
      rw [ih _ _ hlt, List.append_assoc]
      rfl

theorem digitChar_inj : ∀ m < 10, ∀ n < 10, Nat.digitChar m = Nat.digitChar n → m = n := by
  decide

theorem decDigits_inj : ∀ m n : ℕ, decDigits m = decDigits n → m = n := by
  intro m
  induction m using Nat.strong_induction_on with
  | _ m ih =>
    intro n h
    by_cases hm : m < 10 <;> by_cases hn : n < 10
    · rw [decDigits_lt hm, decDigits_lt hn] at h
      exact digitChar_inj m hm n hn (by simpa using h)
    · rw [decDigits_lt hm, decDigits_ge hn] at h
      have : (1 : ℕ) = (decDigits (n / 10)).length + 1 := by
        have := congrArg List.length h
        simpa using this
      have hne := decDigits_ne_nil (n / 10)
      cases hd : decDigits (n / 10) with
      | nil => exact absurd hd hne
      | cons a t => rw [hd] at this; simp at this
    · rw [decDigits_ge hm, decDigits_lt hn] at h
      have : (decDigits (m / 10)).length + 1 = 1 := by
        have := congrArg List.length h
        simpa using this
      have hne := decDigits_ne_nil (m / 10)
      cases hd : decDigits (m / 10) with
      | nil => exact absurd hd hne
      | cons a t => rw [hd] at this; simp at this
    · rw [decDigits_ge hm, decDigits_ge hn] at h
      have h' := congrArg List.reverse h
      simp only [List.reverse_append, List.reverse_cons, List.reverse_nil,
        List.nil_append, List.singleton_append, List.cons.injEq] at h'
      obtain ⟨hdig, hrest⟩ := h'
      have hdiv : m / 10 = n / 10 := by
        apply ih (m / 10) (Nat.div_lt_self (by omega) (by omega))
        have := congrArg List.reverse hrest
        simpa using this
      have hmod : m % 10 = n % 10 :=
        digitChar_inj _ (Nat.mod_lt _ (by omega)) _ (Nat.mod_lt _ (by omega)) hdig
      omega

theorem nat_repr_inj : ∀ m n : ℕ, Nat.repr m = Nat.repr n → m = n := by
  intro m n h
  apply decDigits_inj
  have hm := toDigitsCore_eq_decDigits (m + 1) m [] (by omega)
  have hn := toDigitsCore_eq_decDigits (n + 1) n [] (by omega)
  unfold Nat.repr Nat.toDigits at h
  rw [hm, hn, List.append_nil, List.append_nil] at h
  exact List.asString_inj.mp h

theorem candidate_inj (base : String) : ∀ i j, candidate base i = candidate base j → i = j := by
  have hlen : ∀ i, i ≠ 0 → (candidate base i).length > base.length := by
    intro i hi
    have h1 : (Nat.repr i).length ≥ 1 := by
      have := toDigitsCore_eq_decDigits (i + 1) i [] (by omega)
      unfold Nat.repr Nat.toDigits
      rw [this, List.append_nil, List.length_asString]
      have := decDigits_ne_nil i
      cases hd : decDigits i with
      | nil => exact absurd hd this
      | cons a t => simp [hd]
    simp only [candidate, if_neg hi, String.length_append]
    have : ("_" : String).length = 1 := rfl
    omega
  intro i j h
  by_cases hi : i = 0 <;> by_cases hj : j = 0
  · omega
  · exfalso
    have := hlen j hj
    rw [← h] at this
    simp [candidate, hi] at this
  · exfalso
    have := hlen i hi
    rw [h] at this
    simp [candidate, hj] at this
  · simp only [candidate, if_neg hi, if_neg hj] at h
    have hdata := congrArg String.data h
    simp only [String.data_append, List.append_assoc] at hdata
    have h1 := List.append_cancel_left hdata
    have h2 := List.append_cancel_left h1
    exact nat_repr_inj _ _ (String.ext h2)

theorem genUniqueAux_fresh (keys : List String) (base : String) :
    ∀ (f i : ℕ), (∃ j < f + 1, candidate base (i + j) ∉ keys) →
      genUniqueAux keys base f i ∉ keys := by
  intro f
  induction f with
  | zero =>
    intro i ⟨j, hj, hfresh⟩
    interval_cases j
    simpa [genUniqueAux] using hfresh
  | succ f ih =>
    intro i ⟨j, hj, hfresh⟩
    by_cases hmem : candidate base i ∈ keys
    · have hj0 : j ≠ 0 := by
        rintro rfl
        simp at hfresh
        exact hfresh hmem
      simp only [genUniqueAux, if_pos hmem]
      apply ih
      refine ⟨j - 1, by omega, ?_⟩
      have : i + 1 + (j - 1) = i + j := by omega
      rw [this]
      exact hfresh
    · simpa [genUniqueAux, if_neg hmem] using hmem

/-- Freshness of `_generate_unique_id`: the returned id is not a current
node id. -/
theorem generate_unique_id_fresh (net : Network) (base : String) :
    generate_unique_id net base ∉ nodeIds net := by
  apply genUniqueAux_fresh
  by_contra hall
  push_neg at hall
  simp only [Nat.zero_add] at hall
  have hsub : (List.range (net.nodes.length + 2)).map (candidate base) ⊆ nodeIds net := by
    intro x hx
    simp only [List.mem_map, List.mem_range] at hx
    obtain ⟨j, hj, rfl⟩ := hx
    exact hall j (by omega)
  have hnodup : ((List.range (net.nodes.length + 2)).map (candidate base)).Nodup := by
    apply List.Nodup.map_on
    · intro i _ j _ hij
      exact candidate_inj base i j hij
    · exact List.nodup_range _
  have hle := (List.subperm_of_subset hnodup hsub).length_le
  have hids : (nodeIds net).length = net.nodes.length := by
    simp [nodeIds, akeys]
  simp only [List.length_map, List.length_range] at hle
  omega

/-! ### Shape lemmas for `update_metrics` -/

theorem cleanParents_graph (net : Network) : (cleanParents net).graph = net.graph := rfl

theorem cleanParents_thr (net : Network) :
    (cleanParents net).min_children_threshold = net.min_children_threshold := rfl

theorem update_metrics_graph (net : Network) : (update_metrics net).graph = net.graph := by
  unfold update_metrics
  split <;> rfl

theorem update_metrics_thr (net : Network) :
    (update_metrics net).min_children_threshold = net.min_children_threshold := by
  unfold update_metrics
  split <;> rfl

theorem setNodeFields_value (thr : ℕ) (ids : List String) (vm : List (String × ℚ))
    (g : List (String × EdgeList)) (dm : List (String × ℕ)) (nid : String)
    (nd : NodeRec) : (setNodeFields thr ids vm g dm nid nd).value = nd.value := rfl

theorem setNodeFields_parents (thr : ℕ) (ids : List String) (vm : List (String × ℚ))
    (g : List (String × EdgeList)) (dm : List (String × ℕ)) (nid : String)
    (nd : NodeRec) : (setNodeFields thr ids vm g dm nid nd).parents = nd.parents := rfl

theorem isEmpty_false_of_lookup {α : Type} {l : List (String × α)} {k : String} {v : α}
    (h : alookup l k = some v) : l.isEmpty = false := by
  cases l with
  | nil => simp [alookup] at h
  | cons p t => rfl

/-- Any node of a recompute output is `setNodeFields` applied to the cleaned
node. -/
theorem update_metrics_lookup {net : Network} {nid : String} {nd : NodeRec}
    (h : alookup (update_metrics net).nodes nid = some nd) :
    ∃ nd₀, alookup (cleanParents net).nodes nid = some nd₀ ∧
      nd = setNodeFields (cleanParents net).min_children_threshold
        (akeys (cleanParents net).nodes) (valueMap (cleanParents net))
        (cleanParents net).graph
        (computeDepths (idsParents (cleanParents net)) (cleanParents net).graph).1 nid nd₀ := by
  by_cases he : net.nodes.isEmpty
  · exfalso
    unfold update_metrics at h
    rw [if_pos he] at h
    have : net.nodes = [] := List.isEmpty_iff.mp he
    simp only [this, alookup] at h
    exact Option.noConfusion h
  · unfold update_metrics at h
    rw [if_neg he] at h
    simp only at h
    rw [alookup_mapval (fun i nd => setNodeFields (cleanParents net).min_children_threshold
      (akeys (cleanParents net).nodes) (valueMap (cleanParents net)) (cleanParents net).graph
      (computeDepths (idsParents (cleanParents net)) (cleanParents net).graph).1 i nd)
      (cleanParents net).nodes nid] at h
    cases h0 : alookup (cleanParents net).nodes nid with
    | none => rw [h0] at h; exact Option.noConfusion h
    | some nd₀ =>
      rw [h0] at h
      exact ⟨nd₀, rfl, (Option.some_inj.mp h).symm⟩

theorem cleanParents_lookup (net : Network) (c : String) :
    alookup (cleanParents net).nodes c = (alookup net.nodes c).map (cleanNode net) := by
  unfold cleanParents
  exact alookup_mapval (fun _ nd => cleanNode net nd) net.nodes c

/-- Recompute preserves every node's `value`. -/
theorem update_metrics_value (net : Network) (c : String) :
    (alookup (update_metrics net).nodes c).map (·.value) =
      (alookup net.nodes c).map (·.value) := by
  by_cases he : net.nodes.isEmpty
  · unfold update_metrics
    rw [if_pos he]
  · unfold update_metrics
    rw [if_neg he]
    simp only
    rw [alookup_mapval (fun i nd => setNodeFields (cleanParents net).min_children_threshold
      (akeys (cleanParents net).nodes) (valueMap (cleanParents net)) (cleanParents net).graph
      (computeDepths (idsParents (cleanParents net)) (cleanParents net).graph).1 i nd)
      (cleanParents net).nodes c]
    rw [cleanParents_lookup]
    cases alookup net.nodes c <;> rfl

/-! ### Claims C3, C7, C5, C2 -/

/-- Reduction of `add_subtree_from_data` on a fragment with both maps
present (pure unfolding, checked by `rfl`). -/
theorem add_subtree_reduce (net : Network) (pid : String)
    (fns : List (String × Option ℚ)) (fg : List (String × List (String × Option ℚ)))
    (stamp : String) :
    add_subtree_from_data net pid ⟨some fns, some fg⟩ stamp =
      if (alookup net.nodes pid).isNone = true then .error "Parent node not found."
      else if fns.isEmpty = true then .ok (net, [])
      else if (fragLocalRoots fns fg).isEmpty = true then
        .error "Subtree seems to have a cycle or no clear roots."
      else
        let pfx := pid ++ "_sub" ++ stamp ++ "_"
        let fuel := (fragLocalRoots fns fg).length + (fg.map (·.2.length)).sum + 1
        let st := importLoop fns fg (fragLocalRoots fns fg) pid pfx fuel
          { net := net, mapping := [], added := [], processed := [], queue := fragLocalRoots fns fg }
        .ok (update_metrics (importEdges fg st.mapping st.net), st.added) := rfl

/-- Reduction of `add_subtree_from_data` without a node map. -/
theorem add_subtree_reduce_nonodes (net : Network) (pid : String)
    (x : Option (List (String × List (String × Option ℚ)))) (stamp : String) :
    add_subtree_from_data net pid ⟨none, x⟩ stamp =
      if (alookup net.nodes pid).isNone = true then .error "Parent node not found."
      else .error "Invalid subtree data format. Missing nodes or graph." := rfl

/-- Reduction of `add_subtree_from_data` without an edge map. -/
theorem add_subtree_reduce_nograph (net : Network) (pid : String)
    (fns : List (String × Option ℚ)) (stamp : String) :
    add_subtree_from_data net pid ⟨some fns, none⟩ stamp =
      if (alookup net.nodes pid).isNone = true then .error "Parent node not found."
      else .error "Invalid subtree data format. Missing nodes or graph." := rfl

/-- C3: `importSubtree(parentId, fragment)` fails with a validation error
when the parent id is absent, when the fragment lacks both the node map and
the edge map, or when a non-empty node map has no fragment-local roots; the
embedding returns `Except.error` before constructing any new state, so the
network is unchanged on these paths exactly as in the source, where the
`raise`s precede all mutation. -/
theorem claim_C3 (net : Network) (pid : String) (frag : Fragment) (stamp : String)
    (h : alookup net.nodes pid = none ∨
      (frag.fnodes = none ∧ frag.fgraph = none) ∨
      (∃ fns, frag.fnodes = some fns ∧ fns ≠ [] ∧
        fragLocalRoots fns (frag.fgraph.getD []) = [])) :
    ∃ e, add_subtree_from_data net pid frag stamp = .error e := by
  obtain ⟨fno, fgo⟩ := frag
  by_cases hp : (alookup net.nodes pid).isNone = true
  · cases fno with
    | none => rw [add_subtree_reduce_nonodes, if_pos hp]; exact ⟨_, rfl⟩
    | some fns =>
      cases fgo with
      | none => rw [add_subtree_reduce_nograph, if_pos hp]; exact ⟨_, rfl⟩
      | some fg => rw [add_subtree_reduce, if_pos hp]; exact ⟨_, rfl⟩
  · rcases h with hnone | ⟨hn, _⟩ | ⟨fns, hf, hne, hroots⟩
    · rw [hnone] at hp
      simp at hp
    · simp only at hn
      subst hn
      rw [add_subtree_reduce_nonodes, if_neg hp]
      exact ⟨_, rfl⟩
    · simp only at hf
      subst hf
      cases fgo with
      | none =>
        rw [add_subtree_reduce_nograph, if_neg hp]
        exact ⟨_, rfl⟩
      | some fg =>
        simp only [Option.getD_some] at hroots
        have hne' : fns.isEmpty = false := by
          cases fns with
          | nil => exact absurd rfl hne
          | cons a t => rfl
        have hroots' : (fragLocalRoots fns fg).isEmpty = true := by
          rw [hroots]; rfl
        rw [add_subtree_reduce, if_neg hp, hne']
        simp only [Bool.false_eq_true, if_false]
        rw [if_pos hroots']
        exact ⟨_, rfl⟩

/-- C3 witness: importing under a nonexistent parent fails. -/
theorem claim_C3_witness :
    ∃ e, add_subtree_from_data net0 "nope" ⟨none, none⟩ "s" = .error e :=
  claim_C3 net0 "nope" ⟨none, none⟩ "s" (Or.inl (by decide))

/-- C7: after every recompute, `suggested_child_count` is the configured
threshold, `needed_children = max(0, threshold - children_count)`, and
`is_chokepoint` holds exactly when `needed_children > 0`. -/
theorem claim_C7 (net : Network) (nid : String) (nd : NodeRec)
    (h : alookup (update_metrics net).nodes nid = some nd) :
    nd.suggested_child_count = net.min_children_threshold ∧
    (nd.needed_children : ℤ) =
      max 0 ((net.min_children_threshold : ℤ) - (nd.children_count : ℤ)) ∧
    (nd.is_chokepoint = true ↔ 0 < nd.needed_children) := by
  obtain ⟨nd₀, h0, rfl⟩ := update_metrics_lookup h
  refine ⟨rfl, ?_, ?_⟩
  · show ((net.min_children_threshold - (graphGet (cleanParents net).graph nid).length : ℕ) : ℤ)
      = max 0 ((net.min_children_threshold : ℤ)
        - ((graphGet (cleanParents net).graph nid).length : ℤ))
    omega
  · show decide (0 < net.min_children_threshold
        - (graphGet (cleanParents net).graph nid).length) = true
      ↔ 0 < net.min_children_threshold - (graphGet (cleanParents net).graph nid).length
    exact decide_eq_true_iff

/-- C7 witness at the three-node example, node `root.1`. -/
theorem claim_C7_witness :
    ∃ nd, alookup (update_metrics exThree).nodes "root.1" = some nd ∧
      (nd.suggested_child_count = exThree.min_children_threshold ∧
       (nd.needed_children : ℤ) =
         max 0 ((exThree.min_children_threshold : ℤ) - (nd.children_count : ℤ)) ∧
       (nd.is_chokepoint = true ↔ 0 < nd.needed_children)) := by
  cases h : alookup (update_metrics exThree).nodes "root.1" with
  | none => exact absurd h (by decide)
  | some nd => exact ⟨nd, rfl, claim_C7 exThree "root.1" nd h⟩

theorem calculate_criticality_zero {thr cc d : ℕ} (h : thr - cc = 0) :
    calculate_criticality thr cc d = 0 := by
  unfold calculate_criticality
  rw [h]
  rfl

theorem calculate_criticality_pos {thr cc d : ℕ} (h : thr - cc ≠ 0) :
    calculate_criticality thr cc d =
      roundTo 3 (max 0 (min 1 (min 1 (((thr - cc : ℕ) : ℚ) / ((max 1 thr : ℕ) : ℚ)) *
        (1 / (1 + (4 / 100) * (d : ℚ)))))) := by
  simp only [calculate_criticality]
  rw [if_neg h]

/-- C5: after every recompute, criticality is `0` when no children are
needed, and otherwise the clamped, depth-damped need ratio rounded to 3
decimals (`0.04 = 4/100` exactly). -/
theorem claim_C5 (net : Network) (nid : String) (nd : NodeRec)
    (h : alookup (update_metrics net).nodes nid = some nd) :
    (nd.needed_children = 0 → nd.criticality = 0) ∧
    (nd.needed_children ≠ 0 → nd.criticality =
      roundTo 3 (max 0 (min 1
        (min 1 ((nd.needed_children : ℚ) / ((max 1 net.min_children_threshold : ℕ) : ℚ)) *
          (1 / (1 + (4 / 100) * (nd.depth : ℚ))))))) := by
  obtain ⟨nd₀, h0, rfl⟩ := update_metrics_lookup h
  constructor
  · intro hz
    exact calculate_criticality_zero hz
  · intro hnz
    exact calculate_criticality_pos hnz

/-- C5 witness at the three-node example, leaf `root.2` (2 children needed,
depth 1). -/
theorem claim_C5_witness :
    ∃ nd, alookup (update_metrics exThree).nodes "root.2" = some nd ∧
      ((nd.needed_children = 0 → nd.criticality = 0) ∧
       (nd.needed_children ≠ 0 → nd.criticality =
         roundTo 3 (max 0 (min 1
           (min 1 ((nd.needed_children : ℚ) /
               ((max 1 exThree.min_children_threshold : ℕ) : ℚ)) *
             (1 / (1 + (4 / 100) * (nd.depth : ℚ)))))))) := by
  cases h : alookup (update_metrics exThree).nodes "root.2" with
  | none => exact absurd h (by decide)
  | some nd => exact ⟨nd, rfl, claim_C5 exThree "root.2" nd h⟩

/-! ### Claim C2 (profit) -/

theorem cleanParents_value (net : Network) (c : String) :
    (alookup (cleanParents net).nodes c).map (·.value) =
      (alookup net.nodes c).map (·.value) := by
  rw [cleanParents_lookup]
  cases alookup net.nodes c <;> rfl

theorem valueMap_lookup (m : Network) (c : String) :
    alookup (valueMap m) c = (alookup m.nodes c).map (·.value) := by
  unfold valueMap
  exact alookup_mapval (fun _ nd => nd.value) m.nodes c

/-- C2 counterexample: a root with a single child of value `-100` (a state
`add_node` happily produces).  After recompute the stored profit is `0`
(the code floors at zero), while the claim's formula
`round(sum(child values), 2)` gives `-100`. -/
theorem claim_C2_counterexample :
    (alookup (update_metrics exNeg).nodes "root").isSome = true ∧
    ((alookup (update_metrics exNeg).nodes "root").map (·.profit)).getD 99 ≠
      roundTo 2 (((get_direct_children (update_metrics exNeg) "root").map
        (fun c => ((alookup (update_metrics exNeg).nodes c).map (·.value)).getD 0)).sum) := by
  constructor
  · with_unfolding_all decide
  · with_unfolding_all decide

/-- C2 as amended: after every recompute, `profit(n)` is the sum of the
values of `n`'s existing direct children, **floored at 0**, rounded to 2
decimals; a leaf's profit is 0. -/
theorem claim_C2 (net : Network) (nid : String) (nd : NodeRec)
    (h : alookup (update_metrics net).nodes nid = some nd) :
    nd.profit = roundTo 2 (max 0 (((get_direct_children (update_metrics net) nid).map
      (fun c => ((alookup (update_metrics net).nodes c).map (·.value)).getD 0)).sum)) ∧
    (get_direct_children (update_metrics net) nid = [] → nd.profit = 0) := by
  obtain ⟨nd₀, h0, rfl⟩ := update_metrics_lookup h
  have hmain : (setNodeFields (cleanParents net).min_children_threshold
      (akeys (cleanParents net).nodes) (valueMap (cleanParents net)) (cleanParents net).graph
      (computeDepths (idsParents (cleanParents net)) (cleanParents net).graph).1
      nid nd₀).profit = roundTo 2 (max 0 (((get_direct_children (update_metrics net) nid).map
      (fun c => ((alookup (update_metrics net).nodes c).map (·.value)).getD 0)).sum)) := by
    show calculate_profit (valueMap (cleanParents net)) (cleanParents net).graph nid = _
    unfold calculate_profit
    have hsome : (alookup (valueMap (cleanParents net)) nid).isNone = false := by
      rw [valueMap_lookup, h0]
      rfl
    rw [hsome]
    simp only [Bool.false_eq_true, if_false]
    have hch : get_direct_children (update_metrics net) nid
        = (graphGet (cleanParents net).graph nid).map (·.1) := by
      unfold get_direct_children
      rw [update_metrics_graph, cleanParents_graph]
    rw [hch]
    have hmap : (((graphGet (cleanParents net).graph nid).map (·.1)).map
        (fun c => ((alookup (update_metrics net).nodes c).map (·.value)).getD 0)) =
        (((graphGet (cleanParents net).graph nid).map (·.1)).map
        (fun c => (alookup (valueMap (cleanParents net)) c).getD 0)) := by
      apply List.map_congr_left
      intro c _
      rw [update_metrics_value, valueMap_lookup, cleanParents_value]
    rw [hmap]
  refine ⟨hmain, fun hleaf => ?_⟩
  rw [hmain, hleaf]
  simp only [List.map_nil, List.sum_nil, max_self]
  norm_num [roundTo]
  with_unfolding_all decide

/-- C2 witness for the amended statement, at `root` of the three-node
example. -/
theorem claim_C2_witness :
    ∃ nd, alookup (update_metrics exThree).nodes "root" = some nd ∧
      (nd.profit = roundTo 2 (max 0 (((get_direct_children (update_metrics exThree) "root").map
        (fun c => ((alookup (update_metrics exThree).nodes c).map (·.value)).getD 0)).sum)) ∧
      (get_direct_children (update_metrics exThree) "root" = [] → nd.profit = 0)) := by
  cases h : alookup (update_metrics exThree).nodes "root" with
  | none => exact absurd h (by decide)
  | some nd => exact ⟨nd, rfl, claim_C2 exThree "root" nd h⟩

/-! ### Claim C1 (bulk delete) -/

theorem alookup_aupd {α : Type} (l : List (String × α)) (k k' : String) (v : α) :
    alookup (aupd l k v) k' = if k = k' then some v else alookup l k' := by
  induction l with
  | nil =>
    by_cases h : k = k' <;> simp [aupd, alookup, h]
  | cons p t ih =>
    obtain ⟨k₀, v₀⟩ := p
    by_cases h0 : k₀ = k
    · subst h0
      by_cases h : k₀ = k' <;> simp [aupd, alookup, h, ih]
    · by_cases h : k₀ = k'
      · subst h
        have hkk : k ≠ k₀ := fun hc => h0 hc.symm
        simp [aupd, alookup, h0, hkk, ih]
      · simp [aupd, alookup, h0, h, ih]

theorem akeys_aupd_sub {α : Type} (l : List (String × α)) (k k' : String) (v : α)
    (h : k' ∈ akeys l) : k' ∈ akeys (aupd l k v) := by
  have := alookup_aupd l k k' v
  by_cases hk : k = k'
  · subst hk
    rw [← alookup_isSome_iff, this]
    simp
  · rw [← alookup_isSome_iff, this, if_neg hk, alookup_isSome_iff]
    exact h

/-- Characterisation of the validation fold. -/
theorem bulkFailed_fold_lookup (net : Network) (ids : List String) :
    ∀ (fs : List (String × String)) (k : String),
      alookup (ids.foldl (fun fs nid =>
        match alookup net.nodes nid with
        | none => aupd fs nid "Node not found"
        | some _ => if graphGet net.graph nid ≠ [] then aupd fs nid "Node has children"
          else fs) fs) k =
      if k ∈ ids ∧ bulkInvalid net k then some (bulkReason net k) else alookup fs k := by
  induction ids with
  | nil => intro fs k; simp
  | cons a t ih =>
    intro fs k
    simp only [List.foldl_cons]
    by_cases hk : k = a
    · subst hk
      cases ha : alookup net.nodes k with
      | none =>
        rw [ih]
        by_cases ht : k ∈ t ∧ bulkInvalid net k
        · rw [if_pos ht, if_pos ⟨List.mem_cons_self _ _, ht.2⟩]
        · rw [if_neg ht, alookup_aupd, if_pos rfl,
            if_pos ⟨List.mem_cons_self _ _, Or.inl ha⟩]
          unfold bulkReason
          rw [if_pos ha]
      | some nd =>
        by_cases hc : graphGet net.graph k ≠ []
        · rw [if_pos hc, ih]
          by_cases ht : k ∈ t ∧ bulkInvalid net k
          · rw [if_pos ht, if_pos ⟨List.mem_cons_self _ _, ht.2⟩]
          · rw [if_neg ht, alookup_aupd, if_pos rfl,
              if_pos ⟨List.mem_cons_self _ _, Or.inr hc⟩]
            unfold bulkReason
            rw [if_neg (by rw [ha]; exact fun hcon => Option.noConfusion hcon)]
        · rw [if_neg hc, ih]
          push_neg at hc
          have hval : ¬ bulkInvalid net k := by
            intro hv
            rcases hv with hv | hv
            · rw [ha] at hv; exact Option.noConfusion hv
            · exact hv hc
          rw [if_neg (fun hcon => hval hcon.2), if_neg (fun hcon => hval hcon.2)]
    · cases ha : alookup net.nodes a with
      | none =>
        rw [ih]
        by_cases ht : k ∈ t ∧ bulkInvalid net k
        · rw [if_pos ht, if_pos ⟨List.mem_cons_of_mem _ ht.1, ht.2⟩]
        · rw [if_neg ht, alookup_aupd, if_neg (fun hc : a = k => hk hc.symm),
            if_neg (fun hcon => ht ⟨(List.mem_cons.mp hcon.1).resolve_left hk, hcon.2⟩)]
      | some nd =>
        by_cases hc : graphGet net.graph a ≠ []
        · rw [if_pos hc, ih]
          by_cases ht : k ∈ t ∧ bulkInvalid net k
          · rw [if_pos ht, if_pos ⟨List.mem_cons_of_mem _ ht.1, ht.2⟩]
          · rw [if_neg ht, alookup_aupd, if_neg (fun hc2 : a = k => hk hc2.symm),
              if_neg (fun hcon => ht ⟨(List.mem_cons.mp hcon.1).resolve_left hk, hcon.2⟩)]
        · rw [if_neg hc, ih]
          by_cases ht : k ∈ t ∧ bulkInvalid net k
          · rw [if_pos ht, if_pos ⟨List.mem_cons_of_mem _ ht.1, ht.2⟩]
          · rw [if_neg ht,
              if_neg (fun hcon => ht ⟨(List.mem_cons.mp hcon.1).resolve_left hk, hcon.2⟩)]

theorem bulkFailed_lookup (net : Network) (ids : List String) (k : String) :
    alookup (bulkFailed net ids) k =
      if k ∈ ids ∧ bulkInvalid net k then some (bulkReason net k) else none := by
  unfold bulkFailed
  rw [bulkFailed_fold_lookup]
  rfl

/-- C1 counterexample to the claim's scenario sentence: with `root.1`
non-leaf and `root.2` a valid leaf, the whole bulk delete is rejected with
the network unchanged, but the per-id reason map names only `root.1` —
`root.2` is not reported. -/
theorem claim_C1_counterexample :
    bulk_remove_nodes exFour ["root.1", "root.2"] =
      (.validationFailed [("root.1", "Node has children")], exFour) := by
  with_unfolding_all decide

/-- C1 as amended: if any bulk-delete target fails validation (missing node
or non-leaf), the operation mutates nothing — it returns the untouched
network and a `validationFailed` outcome whose per-id reason map names
exactly the invalid targets with their reasons (only those; valid targets
such as `"b"` in the scenario are not listed, though they are not deleted
either). -/
theorem claim_C1 (net : Network) (ids : List String)
    (h : ∃ nid ∈ ids, bulkInvalid net nid) :
    bulk_remove_nodes net ids = (.validationFailed (bulkFailed net ids), net) ∧
    (∀ k, alookup (bulkFailed net ids) k =
      if k ∈ ids ∧ bulkInvalid net k then some (bulkReason net k) else none) ∧
    bulkFailed net ids ≠ [] := by
  obtain ⟨nid, hmem, hinv⟩ := h
  have hne : ids.isEmpty = false := by
    cases ids with
    | nil => exact absurd hmem (List.not_mem_nil _)
    | cons a t => rfl
  have hlook := bulkFailed_lookup net ids
  have hfne : bulkFailed net ids ≠ [] := by
    intro hnil
    have := hlook nid
    rw [if_pos ⟨hmem, hinv⟩, hnil] at this
    simp [alookup] at this
  refine ⟨?_, hlook, hfne⟩
  unfold bulk_remove_nodes
  rw [hne]
  simp only [Bool.false_eq_true, if_false]
  have hfe : (bulkFailed net ids).isEmpty = false := by
    cases hc : bulkFailed net ids with
    | nil => exact absurd hc hfne
    | cons a t => rfl
  rw [hfe]
  simp

/-- C1 witness: the scenario instance (`root.1` has a child, `root.2` is a
leaf). -/
theorem claim_C1_witness :
    (∃ nid ∈ ["root.1", "root.2"], bulkInvalid exFour nid) ∧
    (bulk_remove_nodes exFour ["root.1", "root.2"] =
      (.validationFailed (bulkFailed exFour ["root.1", "root.2"]), exFour) ∧
    (∀ k, alookup (bulkFailed exFour ["root.1", "root.2"]) k =
      if k ∈ ["root.1", "root.2"] ∧ bulkInvalid exFour k
      then some (bulkReason exFour k) else none) ∧
    bulkFailed exFour ["root.1", "root.2"] ≠ []) :=
  ⟨⟨"root.1", by decide, by decide⟩,
    claim_C1 exFour ["root.1", "root.2"] ⟨"root.1", by decide, by decide⟩⟩

/-- C6: importing the 3-node single-local-root fragment under `root.2`
succeeds, returns exactly 3 newly minted ids that collide neither with the
pre-existing ids (one fragment id, `root.1`, is such an id) nor with each
other, and `children_count("root.2")` increases by exactly 1 — the number of
fragment-local roots — not by 3. -/
theorem claim_C6 :
    "root.1" ∈ nodeIds exThree ∧
    add_subtree_from_data exThree "root.2" exFrag "00000000" =
      .ok (exImpNet, ["root.2_sub00000000_root.1", "root.2_sub00000000_a",
        "root.2_sub00000000_b"]) ∧
    (["root.2_sub00000000_root.1", "root.2_sub00000000_a",
      "root.2_sub00000000_b"] : List String).length = 3 ∧
    (["root.2_sub00000000_root.1", "root.2_sub00000000_a",
      "root.2_sub00000000_b"] : List String).Nodup ∧
    (∀ i ∈ (["root.2_sub00000000_root.1", "root.2_sub00000000_a",
      "root.2_sub00000000_b"] : List String), i ∉ nodeIds exThree) ∧
    (fragLocalRoots [("root.1", (none : Option ℚ)), ("a", some 5), ("b", none)]
      [("root.1", [("a", some 1), ("b", none)])]).length = 1 ∧
    ((alookup exImpNet.nodes "root.2").map (·.children_count)).getD 99 =
      ((alookup exThree.nodes "root.2").map (·.children_count)).getD 99 + 1 := by
  refine ⟨by decide, ?_, rfl, by decide, by decide, by decide, ?_⟩
  · with_unfolding_all decide
  · with_unfolding_all decide

/-! ### Claim C8 (idempotence of recompute) -/

/-- Unfolding equation for a recompute on a non-empty store. -/
theorem update_metrics_eq (m : Network) (h : m.nodes.isEmpty = false) :
    update_metrics m = { cleanParents m with
      max_depth := (computeDepths (idsParents (cleanParents m)) (cleanParents m).graph).2
      nodes := (cleanParents m).nodes.map (fun p => (p.1,
        setNodeFields (cleanParents m).min_children_threshold (akeys (cleanParents m).nodes)
          (valueMap (cleanParents m)) (cleanParents m).graph
          (computeDepths (idsParents (cleanParents m)) (cleanParents m).graph).1 p.1 p.2)) } := by
  unfold update_metrics
  simp only [h, Bool.false_eq_true, if_false]

/-- A second application of the field passes with the same structural inputs
changes nothing: the passes overwrite exactly the fields they computed and
preserve `parents` and `value`. -/
theorem setNodeFields_idem (thr : ℕ) (ids : List String) (vm : List (String × ℚ))
    (g : List (String × EdgeList)) (dm : List (String × ℕ)) (nid : String) (nd : NodeRec) :
    setNodeFields thr ids vm g dm nid (setNodeFields thr ids vm g dm nid nd) =
      setNodeFields thr ids vm g dm nid nd := rfl

/-- Parent clean-up is the identity when every listed parent exists. -/
theorem cleanParents_eq_self {m : Network}
    (h : ∀ p ∈ m.nodes, ∀ q ∈ p.2.parents, (alookup m.nodes q).isSome = true) :
    cleanParents m = m := by
  unfold cleanParents
  have hmap : m.nodes.map (fun p => (p.1, cleanNode m p.2)) = m.nodes := by
    have := List.map_congr_left (l := m.nodes)
      (f := fun p => (p.1, cleanNode m p.2)) (g := id) ?_
    · rw [this, List.map_id]
    · intro p hp
      have hfix : p.2.parents.filter (fun q => (alookup m.nodes q).isSome) = p.2.parents :=
        List.filter_eq_self.mpr (fun q hq => h p hp q hq)
      show (p.1, cleanNode m p.2) = p
      unfold cleanNode
      rw [hfix]
  rw [hmap]

theorem akeys_cleanParents (m : Network) : akeys (cleanParents m).nodes = akeys m.nodes := by
  unfold cleanParents
  exact akeys_mapval (fun _ nd => cleanNode m nd) m.nodes

/-- C8: `recompute()` is idempotent — running it twice with no intervening
change gives exactly the state produced by running it once (all computed
node fields and `max_depth` included, since the whole records are equal). -/
theorem claim_C8 (net : Network) : update_metrics (update_metrics net) = update_metrics net := by
  by_cases he : net.nodes.isEmpty
  · have h1 : update_metrics net = { net with max_depth := 0 } := by
      unfold update_metrics
      rw [if_pos he]
    rw [h1]
    unfold update_metrics
    rw [if_pos he]
  · have he' : net.nodes.isEmpty = false := by
      cases hx : net.nodes.isEmpty
      · rfl
      · exact absurd hx (by rw [hx] at he ⊢; exact fun _ => he rfl)
    have hu := update_metrics_eq net he'
    have hkeys : akeys (update_metrics net).nodes = akeys net.nodes := by
      rw [hu]
      show akeys ((cleanParents net).nodes.map _) = _
      rw [akeys_mapval (fun i nd => setNodeFields (cleanParents net).min_children_threshold
        (akeys (cleanParents net).nodes) (valueMap (cleanParents net)) (cleanParents net).graph
        (computeDepths (idsParents (cleanParents net)) (cleanParents net).graph).1 i nd)]
      exact akeys_cleanParents net
    have hne2 : (update_metrics net).nodes.isEmpty = false := by
      have hlen := congrArg List.length hkeys
      simp only [akeys, List.length_map] at hlen
      cases hx : (update_metrics net).nodes with
      | nil =>
        rw [hx] at hlen
        cases hy : net.nodes with
        | nil => rw [hy] at he'; exact absurd he' (by simp)
        | cons a t => rw [hy] at hlen; simp at hlen
      | cons a t => rfl
    have hpe : ∀ p ∈ (update_metrics net).nodes, ∀ q ∈ p.2.parents,
        (alookup (update_metrics net).nodes q).isSome = true := by
      intro p hp q hq
      rw [hu] at hp
      simp only [List.mem_map] at hp
      obtain ⟨p0, hp0, rfl⟩ := hp
      rw [setNodeFields_parents] at hq
      unfold cleanParents at hp0
      simp only [List.mem_map] at hp0
      obtain ⟨o, ho, rfl⟩ := hp0
      have hq' : q ∈ (cleanNode net o.2).parents := hq
      unfold cleanNode at hq'
      simp only [List.mem_filter] at hq'
      rw [alookup_isSome_iff, hkeys]
      rw [alookup_isSome_iff] at hq'
      exact hq'.2
    have hclean : cleanParents (update_metrics net) = update_metrics net :=
      cleanParents_eq_self hpe
    rw [update_metrics_eq (update_metrics net) hne2, hclean]
    have hidp : idsParents (update_metrics net) = idsParents (cleanParents net) := by
      rw [hu]
      show idsParents { cleanParents net with max_depth := _, nodes := _ } = _
      unfold idsParents
      show ((cleanParents net).nodes.map _).map _ = _
      rw [List.map_map]
      apply List.map_congr_left
      intro p _
      rfl
    have hvm : valueMap (update_metrics net) = valueMap (cleanParents net) := by
      rw [hu]
      show valueMap { cleanParents net with max_depth := _, nodes := _ } = _
      unfold valueMap
      show ((cleanParents net).nodes.map _).map _ = _
      rw [List.map_map]
      apply List.map_congr_left
      intro p _
      rfl
    have hak : akeys (update_metrics net).nodes = akeys (cleanParents net).nodes := by
      rw [hkeys, akeys_cleanParents]
    have hgr : (update_metrics net).graph = (cleanParents net).graph := by
      rw [hu]
    have hth : (update_metrics net).min_children_threshold
        = (cleanParents net).min_children_threshold := by
      rw [hu]
    rw [hidp, hvm, hak, hgr, hth]
    have hnodes : (update_metrics net).nodes.map (fun p => (p.1,
        setNodeFields (cleanParents net).min_children_threshold
          (akeys (cleanParents net).nodes) (valueMap (cleanParents net))
          (cleanParents net).graph
          (computeDepths (idsParents (cleanParents net)) (cleanParents net).graph).1 p.1 p.2))
        = (update_metrics net).nodes := by
      conv_lhs => rw [hu]
      show ((cleanParents net).nodes.map _).map _ = _
      rw [List.map_map]
      conv_rhs => rw [hu]
      show _ = (cleanParents net).nodes.map _
      apply List.map_congr_left
      intro p _
      show (p.1, setNodeFields _ _ _ _ _ p.1 (setNodeFields _ _ _ _ _ p.1 p.2)) = _
      rw [setNodeFields_idem]
    have hmd : (computeDepths (idsParents (cleanParents net)) (cleanParents net).graph).2
        = (update_metrics net).max_depth := by
      rw [hu]
    rw [hnodes, hmd]

theorem aupd_absent {α : Type} {l : List (String × α)} {k : String} (v : α)
    (h : k ∉ akeys l) : aupd l k v = l ++ [(k, v)] := by
  induction l with
  | nil => rfl
  | cons p t ih =>
    obtain ⟨k', v'⟩ := p
    have hk : k' ≠ k := by
      intro hc
      exact h (by simp [akeys, hc])
    simp only [aupd, if_neg hk, List.cons_append, List.cons.injEq, true_and]
    exact ih (fun hc => h (by simp [akeys] at hc ⊢; exact Or.inr hc))

theorem akeys_append {α : Type} (l l' : List (String × α)) :
    akeys (l ++ l') = akeys l ++ akeys l' := by
  simp [akeys]

theorem akeys_amod {α : Type} (l : List (String × α)) (k : String) (f : α → α) :
    akeys (amod l k f) = akeys l := by
  induction l with
  | nil => rfl
  | cons p t ih =>
    obtain ⟨k', v'⟩ := p
    by_cases h : k' = k
    · subst h; simp [amod, akeys]
    · simp only [amod, if_neg h, akeys, List.map_cons]
      simp only [akeys] at ih
      rw [ih]

/-- A fold whose step preserves the node-id list preserves it overall. -/
theorem foldl_keys_preserve {α : Type} (f : Network → α → Network) (l : List α)
    (hstep : ∀ m a, akeys (f m a).nodes = akeys m.nodes) :
    ∀ m, akeys (l.foldl f m).nodes = akeys m.nodes := by
  induction l with
  | nil => intro m; rfl
  | cons x t ih =>
    intro m
    show akeys ((t.foldl f) (f m x)).nodes = _
    rw [ih, hstep]

theorem importEdgeStep_keys (mapping : List (String × String)) (src_new : String)
    (net : Network) (tc : String × Option ℚ) :
    akeys (importEdgeStep mapping src_new net tc).nodes = akeys net.nodes := by
  unfold importEdgeStep
  split
  · rfl
  · split
    · rfl
    · split
      · rfl
      · exact akeys_amod _ _ _

theorem update_metrics_keys (m : Network) : akeys (update_metrics m).nodes = akeys m.nodes := by
  by_cases he : m.nodes.isEmpty
  · unfold update_metrics
    rw [if_pos he]
  · rw [update_metrics_eq m (Bool.eq_false_iff.mpr he)]
    show akeys ((cleanParents m).nodes.map _) = _
    rw [akeys_mapval (fun i nd => setNodeFields (cleanParents m).min_children_threshold
      (akeys (cleanParents m).nodes) (valueMap (cleanParents m)) (cleanParents m).graph
      (computeDepths (idsParents (cleanParents m)) (cleanParents m).graph).1 i nd)]
    exact akeys_cleanParents m

/-- Pass 2 of the import never changes the node-id list. -/
theorem importEdges_keys (fg : List (String × List (String × Option ℚ)))
    (mapping : List (String × String)) (net : Network) :
    akeys (importEdges fg mapping net).nodes = akeys net.nodes := by
  unfold importEdges
  apply foldl_keys_preserve
  intro m om
  exact foldl_keys_preserve _ _ (fun m' tc => importEdgeStep_keys mapping om.2 m' tc) m

theorem importStep_inv {fns fg roots} {parent_id pfx : String} {net₀ : Network}
    {st : ImpState} {o : String} {q : List String}
    (hq : st.queue = o :: q) (hinv : ImpInv fns fg roots net₀ st) :
    ImpInv fns fg roots net₀ (importStep fns fg roots parent_id pfx st o q) := by
  obtain ⟨hQ, hM, hA, hK⟩ := hinv
  have horeach : FragReach fns fg roots o := hQ o (by rw [hq]; exact List.mem_cons_self _ _)
  have hq' : ∀ x ∈ q, FragReach fns fg roots x :=
    fun x hx => hQ x (by rw [hq]; exact List.mem_cons_of_mem _ hx)
  unfold importStep
  by_cases hskip : o ∈ st.processed ∨ (alookup fns o).isNone
  · rw [if_pos hskip]
    exact ⟨hq', hM, hA, hK⟩
  · rw [if_neg hskip]
    push_neg at hskip
    have hofns : o ∈ akeys fns := by
      rw [← alookup_isSome_iff]
      cases hx : alookup fns o with
      | none => exact absurd (by rw [hx]; rfl) hskip.2
      | some v => rfl
    simp only
    constructor
    · intro x hx
      rw [List.mem_append] at hx
      rcases hx with hx | hx
      · exact hq' x hx
      · rw [List.mem_filter] at hx
        obtain ⟨hmem, hcond⟩ := hx
        obtain ⟨hxf, -⟩ : x ∈ akeys fns ∧ x ∉ st.processed ++ [o] := by simpa using hcond
        exact FragReach.step horeach hmem hxf
    constructor
    · intro e he
      rw [List.mem_append] at he
      rcases he with he | he
      · exact hM e he
      · simp only [List.mem_singleton] at he
        subst he
        exact ⟨hofns, horeach⟩
    constructor
    · simp only [List.map_append, List.map_cons, List.map_nil]
      rw [hA]
    · have hfresh := generate_unique_id_fresh st.net (pfx ++ o)
      by_cases hroot : o ∈ roots
      · simp only [hroot, if_true]
        rw [aupd_absent _ hfresh]
        simp only [akeys_append, hK, List.append_assoc]
        rfl
      · simp only [hroot, if_false]
        rw [aupd_absent _ hfresh]
        simp only [akeys_append, hK, List.append_assoc]
        rfl

theorem importLoop_inv (fns : List (String × Option ℚ))
    (fg : List (String × List (String × Option ℚ))) (roots : List String)
    (parent_id pfx : String) (net₀ : Network) :
    ∀ (f : ℕ) (st : ImpState), ImpInv fns fg roots net₀ st →
      ImpInv fns fg roots net₀ (importLoop fns fg roots parent_id pfx f st) := by
  intro f
  induction f with
  | zero => intro st h; exact h
  | succ f ih =>
    intro st h
    unfold importLoop
    cases hq : st.queue with
    | nil => exact h
    | cons o q => exact ih _ (importStep_inv hq h)

/-- C10 (implicit): fragment nodes unreachable from the fragment-local roots
via in-fragment edges are silently skipped — the store gains exactly the
returned ids, and every returned id is the mint of a reachable fragment
node — while the import still succeeds, so the returned list may be shorter
than the fragment's node map (last conjunct: a concrete 3-node fragment
importing only 1 node). -/
theorem claim_C10 (net : Network) (pid stamp : String)
    (fns : List (String × Option ℚ)) (fg : List (String × List (String × Option ℚ)))
    (net' : Network) (ids : List String)
    (h : add_subtree_from_data net pid ⟨some fns, some fg⟩ stamp = .ok (net', ids)) :
    (akeys net'.nodes = akeys net.nodes ++ ids ∧
     ∃ mapping : List (String × String), ids = mapping.map (·.2) ∧
       ∀ e ∈ mapping, e.1 ∈ akeys fns ∧ FragReach fns fg (fragLocalRoots fns fg) e.1) ∧
    (∃ (net₂ net₂' : Network) (fns₂ : List (String × Option ℚ))
       (fg₂ : List (String × List (String × Option ℚ))) (ids₂ : List String),
      add_subtree_from_data net₂ "root" ⟨some fns₂, some fg₂⟩ "s" = .ok (net₂', ids₂) ∧
      ids₂.length < fns₂.length) := by
  constructor
  · rw [add_subtree_reduce] at h
    by_cases hp : (alookup net.nodes pid).isNone = true
    · rw [if_pos hp] at h
      exact absurd h (by simp)
    · rw [if_neg hp] at h
      by_cases hemp : fns.isEmpty = true
      · rw [if_pos hemp] at h
        simp only [Except.ok.injEq, Prod.mk.injEq] at h
        obtain ⟨rfl, rfl⟩ := h
        exact ⟨by simp, [], rfl, by simp⟩
      · rw [if_neg hemp] at h
        by_cases hroots : (fragLocalRoots fns fg).isEmpty = true
        · rw [if_pos hroots] at h
          exact absurd h (by simp)
        · rw [if_neg hroots] at h
          simp only [Except.ok.injEq, Prod.mk.injEq] at h
          obtain ⟨hnet', hids⟩ := h
          have hinv := importLoop_inv fns fg (fragLocalRoots fns fg) pid
            (pid ++ "_sub" ++ stamp ++ "_") net
            ((fragLocalRoots fns fg).length + (fg.map (·.2.length)).sum + 1)
            { net := net, mapping := [], added := [], processed := [],
              queue := fragLocalRoots fns fg }
            ⟨fun o ho => FragReach.root ho, fun e he => absurd he (List.not_mem_nil e),
              rfl, by simp⟩
          obtain ⟨_, hM, hA, hK⟩ := hinv
          constructor
          · rw [← hnet', update_metrics_keys, importEdges_keys, hK, hids]
          · exact ⟨_, by rw [← hids, hA], hM⟩
  · refine ⟨exRoot, exSkipNet, [("r", none), ("x", none), ("y", none)],
      [("r", []), ("x", [("y", none)]), ("y", [("x", none)])], ["root_subs_r"], ?_, ?_⟩
    · with_unfolding_all decide
    · decide

/-- C10 witness: the skipping import instance itself. -/
theorem claim_C10_witness :
    (akeys exSkipNet.nodes = akeys exRoot.nodes ++ ["root_subs_r"] ∧
     ∃ mapping : List (String × String), ["root_subs_r"] = mapping.map (·.2) ∧
       ∀ e ∈ mapping, e.1 ∈ akeys [("r", (none : Option ℚ)), ("x", none), ("y", none)] ∧
         FragReach [("r", none), ("x", none), ("y", none)]
           [("r", []), ("x", [("y", none)]), ("y", [("x", none)])]
           (fragLocalRoots [("r", none), ("x", none), ("y", none)]
             [("r", []), ("x", [("y", none)]), ("y", [("x", none)])]) e.1) ∧
    (∃ (net₂ net₂' : Network) (fns₂ : List (String × Option ℚ))
       (fg₂ : List (String × List (String × Option ℚ))) (ids₂ : List String),
      add_subtree_from_data net₂ "root" ⟨some fns₂, some fg₂⟩ "s" = .ok (net₂', ids₂) ∧
      ids₂.length < fns₂.length) :=
  claim_C10 exRoot "root" "s" [("r", none), ("x", none), ("y", none)]
    [("r", []), ("x", [("y", none)]), ("y", [("x", none)])] exSkipNet ["root_subs_r"]
    (by with_unfolding_all decide)

/-! ### Claim C9: agreement between the graph and the parent lists

Lemma library on the dict primitives, the agreement in "view" form, and
its preservation through `update_metrics`. -/

theorem alookup_amod {α : Type} (l : List (String × α)) (k k' : String) (f : α → α) :
    alookup (amod l k f) k' = if k = k' then (alookup l k).map f else alookup l k' := by
  induction l with
  | nil => by_cases h : k = k' <;> simp [amod, alookup, h]
  | cons p t ih =>
    obtain ⟨k₀, v₀⟩ := p
    by_cases h0 : k₀ = k
    · subst h0
      by_cases h : k₀ = k'
      · subst h
        simp [amod, alookup]
      · have h' : ¬ k₀ = k' := h
        simp [amod, alookup, h', ih]
    · by_cases h : k₀ = k'
      · subst h
        have hkk : ¬ k = k₀ := fun hc => h0 hc.symm
        simp [amod, alookup, h0, hkk]
      · simp [amod, alookup, h0, h, ih]

theorem alookup_aerase {α : Type} {l : List (String × α)} (hnd : (akeys l).Nodup)
    (k k' : String) :
    alookup (aerase l k) k' = if k = k' then none else alookup l k' := by
  induction l with
  | nil => by_cases h : k = k' <;> simp [aerase, alookup, h]
  | cons p t ih =>
    obtain ⟨k₀, v₀⟩ := p
    have hnd' : (akeys t).Nodup := (List.nodup_cons.mp hnd).2
    have hk0 : k₀ ∉ akeys t := (List.nodup_cons.mp hnd).1
    by_cases h0 : k₀ = k
    · subst h0
      by_cases h : k₀ = k'
      · subst h
        simp only [aerase, if_pos rfl, if_pos rfl]
        rw [← alookup_eq_none_iff] at hk0
        exact hk0
      · simp [aerase, alookup, h]
    · by_cases h : k₀ = k'
      · subst h
        have hkk : ¬ k = k₀ := fun hc => h0 hc.symm
        simp [aerase, alookup, h0, hkk]
      · simp [aerase, alookup, h0, h, ih hnd']

theorem alookup_append {α : Type} (l l' : List (String × α)) (k : String) :
    alookup (l ++ l') k =
      match alookup l k with
      | some v => some v
      | none => alookup l' k := by
  induction l with
  | nil => simp [alookup]
  | cons p t ih =>
    obtain ⟨k₀, v₀⟩ := p
    by_cases h : k₀ = k
    · simp [alookup, h]
    · simp [alookup, h, ih]

theorem graphGet_gensure (g : List (String × EdgeList)) (k p : String) :
    graphGet (gensure g k) p = graphGet g p := by
  unfold gensure
  split
  · rfl
  · unfold graphGet
    rw [alookup_append]
    cases hx : alookup g p with
    | some es => rfl
    | none =>
      simp only
      by_cases hpk : k = p
      · subst hpk
        simp [alookup]
      · simp [alookup, hpk]

theorem alookup_append_left {α : Type} {l : List (String × α)} {k : String} {v : α}
    (h : alookup l k = some v) (l' : List (String × α)) :
    alookup (l ++ l') k = some v := by
  induction l with
  | nil => simp [alookup] at h
  | cons p t ih =>
    obtain ⟨k₀, v₀⟩ := p
    by_cases h0 : k₀ = k
    · subst h0
      simp only [alookup, if_pos rfl] at h ⊢
      exact h
    · simp only [List.cons_append, alookup, if_neg h0] at h ⊢
      exact ih h

theorem graphGet_gpush (g : List (String × EdgeList)) (k p : String) (e : String × ℚ) :
    graphGet (gpush g k e) p = if k = p then graphGet g p ++ [e] else graphGet g p := by
  induction g with
  | nil =>
    by_cases h : k = p <;> simp [gpush, graphGet, alookup, h]
  | cons q t ih =>
    obtain ⟨k₀, es⟩ := q
    by_cases h0 : k₀ = k
    · subst h0
      by_cases h : k₀ = p
      · subst h
        simp [gpush, graphGet, alookup]
      · have hkp : ¬ k₀ = p := h
        simp [gpush, graphGet, alookup, hkp]
    · by_cases h : k₀ = p
      · subst h
        have hkk : ¬ k = k₀ := fun hc => h0 hc.symm
        simp [gpush, graphGet, alookup, h0, hkk]
      · simp only [gpush, if_neg h0]
        unfold graphGet at ih ⊢
        simp only [alookup, if_neg h]
        exact ih

theorem akeys_aupd_mem {α : Type} (l : List (String × α)) (k : String) (v : α)
    (h : k ∈ akeys l) : akeys (aupd l k v) = akeys l := by
  induction l with
  | nil => simp [akeys] at h
  | cons p t ih =>
    obtain ⟨k₀, v₀⟩ := p
    by_cases h0 : k₀ = k
    · subst h0; simp [aupd, akeys]
    · have hmem : k ∈ akeys t := by
        simp [akeys] at h
        rcases h with h | h
        · exact absurd h.symm h0
        · simpa [akeys] using h
      simp only [aupd, if_neg h0]
      show k₀ :: akeys (aupd t k v) = k₀ :: akeys t
      rw [ih hmem]

theorem nodup_aupd {α : Type} {l : List (String × α)} (k : String) (v : α)
    (h : (akeys l).Nodup) : (akeys (aupd l k v)).Nodup := by
  by_cases hk : k ∈ akeys l
  · rw [akeys_aupd_mem l k v hk]
    exact h
  · rw [aupd_absent v hk, akeys_append]
    simp only [akeys, List.map_cons, List.map_nil]
    rw [List.nodup_append]
    refine ⟨h, List.nodup_singleton k, ?_⟩
    intro a ha hb
    rw [List.mem_singleton] at hb
    subst hb
    exact hk ha

theorem aerase_sublist {α : Type} (l : List (String × α)) (k : String) :
    List.Sublist (aerase l k) l := by
  induction l with
  | nil => exact List.Sublist.slnil
  | cons p t ih =>
    obtain ⟨k₀, v₀⟩ := p
    by_cases h : k₀ = k
    · simp only [aerase, if_pos h]
      exact List.Sublist.cons _ (List.Sublist.refl t)
    · simp only [aerase, if_neg h]
      exact List.Sublist.cons₂ _ ih

theorem nodup_aerase {α : Type} {l : List (String × α)} (k : String)
    (h : (akeys l).Nodup) : (akeys (aerase l k)).Nodup := by
  show (List.map (fun x => x.1) (aerase l k)).Nodup
  have h2 : (List.map (fun x : String × α => x.1) l).Nodup := h
  exact List.Nodup.sublist ((aerase_sublist l k).map (fun x => x.1)) h2

theorem akeys_gensure_nodup {g : List (String × EdgeList)} (k : String)
    (h : (akeys g).Nodup) : (akeys (gensure g k)).Nodup := by
  unfold gensure
  split
  · exact h
  · rename_i hk
    rw [akeys_append]
    simp only [akeys, List.map_cons, List.map_nil]
    rw [List.nodup_append]
    refine ⟨h, List.nodup_singleton k, ?_⟩
    intro x hx hc
    rw [List.mem_singleton] at hc
    subst hc
    have hx2 : x ∈ akeys g := hx
    rw [← alookup_isSome_iff] at hx2
    exact hk hx2

theorem akeys_gpush_nodup {g : List (String × EdgeList)} (k : String) (e : String × ℚ)
    (h : (akeys g).Nodup) : (akeys (gpush g k e)).Nodup := by
  induction g with
  | nil => simp [gpush, akeys]
  | cons q t ih =>
    obtain ⟨k₀, es⟩ := q
    have h' : (akeys t).Nodup := (List.nodup_cons.mp h).2
    have h0 : k₀ ∉ akeys t := (List.nodup_cons.mp h).1
    by_cases hk : k₀ = k
    · subst hk
      simp only [gpush, if_pos rfl, akeys, List.map_cons]
      exact h
    · simp only [gpush, if_neg hk, akeys, List.map_cons]
      rw [List.nodup_cons]
      constructor
      · intro hc
        have : akeys (gpush t k e) ⊆ k :: akeys t := by
          clear hc h h' h0 ih
          induction t with
          | nil => simp [gpush, akeys]
          | cons r s ihs =>
            obtain ⟨k₁, es₁⟩ := r
            by_cases h1 : k₁ = k
            · subst h1; simp [gpush, akeys, List.subset_def]
            · simp only [gpush, if_neg h1, akeys, List.map_cons]
              intro x hx
              simp only [List.mem_cons] at hx ⊢
              rcases hx with hx | hx
              · exact Or.inr (Or.inl hx)
              · have := ihs hx
                simp only [List.mem_cons] at this
                rcases this with h2 | h2
                · exact Or.inl h2
                · exact Or.inr (Or.inr h2)
        have := this hc
        simp only [List.mem_cons] at this
        rcases this with h2 | h2
        · exact hk h2
        · exact h0 h2
      · exact ih h'

theorem agrees_iff_view (net : Network) : Agrees net ↔ AgreesV net := by
  have hedge : ∀ p c, (∃ cap, (c, cap) ∈ graphGet net.graph p) ↔ edgeTo net p c := by
    intro p c
    unfold edgeTo
    constructor
    · rintro ⟨cap, hm⟩
      exact List.mem_map_of_mem _ hm
    · intro hm
      rw [List.mem_map] at hm
      obtain ⟨e, he, heq⟩ := hm
      exact ⟨e.2, by rw [← heq]; exact he⟩
  have hpar : ∀ p c, (∃ nd, alookup net.nodes c = some nd ∧ p ∈ nd.parents) ↔
      p ∈ parentsView net c := by
    intro p c
    unfold parentsView
    constructor
    · rintro ⟨nd, hnd, hp⟩
      rw [hnd]
      simpa using hp
    · intro hp
      cases hx : alookup net.nodes c with
      | none =>
        rw [hx] at hp
        simp at hp
      | some nd =>
        rw [hx] at hp
        simp at hp
        exact ⟨nd, rfl, hp⟩
  constructor
  · intro h p c
    rw [← hedge p c, ← hpar p c]
    exact h p c
  · intro h p c
    rw [hedge p c, hpar p c]
    exact h p c

theorem agreesB_to_agrees (net : Network) (h : AgreesB net) : Agrees net := by
  rw [agrees_iff_view]
  obtain ⟨h1, h2⟩ := h
  intro p c
  constructor
  · intro he
    unfold edgeTo at he
    cases hg : alookup net.graph p with
    | none =>
      unfold graphGet at he
      rw [hg] at he
      simp at he
    | some es =>
      rw [List.mem_map] at he
      obtain ⟨e, hee, heq⟩ := he
      subst heq
      exact h1 (p, es) (alookup_mem hg) e hee
  · intro hp
    unfold parentsView at hp
    cases hn : alookup net.nodes c with
    | none => rw [hn] at hp; simp at hp
    | some nd =>
      rw [hn] at hp
      simp only [Option.map_some', Option.getD_some] at hp
      exact h2 (c, nd) (alookup_mem hn) p hp

/-! Preservation of the invariant pieces through `update_metrics`. -/

theorem update_metrics_parents_view (m : Network) (hpe : ParentsExist m) (c : String) :
    parentsView (update_metrics m) c = parentsView m c := by
  unfold parentsView
  by_cases he : m.nodes.isEmpty
  · unfold update_metrics
    rw [if_pos he]
  · rw [update_metrics_eq m (Bool.eq_false_iff.mpr he)]
    show ((alookup ((cleanParents m).nodes.map _) c).map _).getD [] = _
    rw [alookup_mapval (fun i nd => setNodeFields (cleanParents m).min_children_threshold
      (akeys (cleanParents m).nodes) (valueMap (cleanParents m)) (cleanParents m).graph
      (computeDepths (idsParents (cleanParents m)) (cleanParents m).graph).1 i nd)]
    rw [cleanParents_lookup]
    cases hx : alookup m.nodes c with
    | none => rfl
    | some nd =>
      simp only [Option.map_some', Option.getD_some]
      show (cleanNode m nd).parents = nd.parents
      unfold cleanNode
      simp only
      apply List.filter_eq_self.mpr
      intro q hq
      rw [alookup_isSome_iff]
      exact hpe (c, nd) (alookup_mem hx) q hq

theorem ParentsExist_update (m : Network) : ParentsExist (update_metrics m) := by
  by_cases he : m.nodes.isEmpty
  · unfold update_metrics ParentsExist
    rw [if_pos he]
    have : m.nodes = [] := List.isEmpty_iff.mp he
    rw [this]
    intro p hp
    simp at hp
  · rw [update_metrics_eq m (Bool.eq_false_iff.mpr he)]
    intro p hp q hq
    simp only [List.mem_map] at hp
    obtain ⟨p0, hp0, rfl⟩ := hp
    rw [setNodeFields_parents] at hq
    unfold cleanParents at hp0
    simp only [List.mem_map] at hp0
    obtain ⟨o, ho, rfl⟩ := hp0
    have hq' : q ∈ (cleanNode m o.2).parents := hq
    unfold cleanNode at hq'
    simp only [List.mem_filter] at hq'
    have hq2 := hq'.2
    rw [alookup_isSome_iff] at hq2
    show q ∈ akeys _
    have hkm : akeys (update_metrics m).nodes = akeys m.nodes := update_metrics_keys m
    rw [update_metrics_eq m (Bool.eq_false_iff.mpr he)] at hkm
    rw [hkm]
    exact hq2

theorem agrees_update (m : Network) (hpe : ParentsExist m) (h : Agrees m) :
    Agrees (update_metrics m) := by
  rw [agrees_iff_view] at h ⊢
  intro p c
  unfold edgeTo
  rw [update_metrics_graph, update_metrics_parents_view m hpe]
  exact h p c

theorem NetInv_update (m : Network) (h : NetInv m) : NetInv (update_metrics m) := by
  obtain ⟨h1, h2, h3, h4⟩ := h
  refine ⟨?_, ?_, ParentsExist_update m, agrees_update m h3 h4⟩
  · show (akeys (update_metrics m).nodes).Nodup
    rw [update_metrics_keys]
    exact h1
  · rw [update_metrics_graph]
    exact h2

/-! Building blocks shared by `add_node` and the subtree importer: inserting
a fresh parentless node, and attaching a `parent → child` edge together with
the child's parent pointer. -/

theorem amod_aupd {α : Type} (l : List (String × α)) (k : String) (v : α) (f : α → α) :
    amod (aupd l k v) k f = aupd l k (f v) := by
  induction l with
  | nil => simp [aupd, amod]
  | cons p t ih =>
    obtain ⟨k₀, v₀⟩ := p
    by_cases h : k₀ = k
    · subst h
      simp [aupd, amod]
    · simp [aupd, amod, h, ih]

theorem alookup_of_mem_nodup {α : Type} {l : List (String × α)} {k : String} {v : α}
    (hnd : (akeys l).Nodup) (h : (k, v) ∈ l) : alookup l k = some v := by
  induction l with
  | nil => simp at h
  | cons p t ih =>
    obtain ⟨k₀, v₀⟩ := p
    rw [List.mem_cons] at h
    rcases h with h | h
    · rw [Prod.mk.injEq] at h
      obtain ⟨rfl, rfl⟩ := h
      simp [alookup]
    · have hk0 : k₀ ∉ akeys t := (List.nodup_cons.mp hnd).1
      have hne : k₀ ≠ k := by
        intro hc
        subst hc
        exact hk0 (List.mem_map_of_mem _ h)
      simp only [alookup, if_neg hne]
      exact ih (List.nodup_cons.mp hnd).2 h

/-- `ParentsExist` from the view form, under unique keys. -/
theorem pe_of_view {m : Network} (hnd : (nodeIds m).Nodup)
    (h : ∀ c, ∀ q ∈ parentsView m c, q ∈ nodeIds m) : ParentsExist m := by
  intro p hp q hq
  obtain ⟨k, nd⟩ := p
  apply h k
  have hx : alookup m.nodes k = some nd := alookup_of_mem_nodup hnd hp
  unfold parentsView
  rw [hx]
  simpa using hq

theorem pe_to_view {m : Network} (h : ParentsExist m) :
    ∀ c, ∀ q ∈ parentsView m c, q ∈ nodeIds m := by
  intro c q hq
  unfold parentsView at hq
  cases hx : alookup m.nodes c with
  | none => rw [hx] at hq; simp at hq
  | some nd =>
    rw [hx] at hq
    simp only [Option.map_some', Option.getD_some] at hq
    exact h (c, nd) (alookup_mem hx) q hq

theorem netInv_iff_view (m : Network) : NetInv m ↔ NetInvV m := by
  unfold NetInv NetInvV
  rw [agrees_iff_view]

theorem nodeIds_aupd_absent (m : Network) (fid : String) (r : NodeRec)
    (h : fid ∉ nodeIds m) :
    akeys (aupd m.nodes fid r) = nodeIds m ++ [fid] := by
  rw [aupd_absent r h, akeys_append]
  rfl

theorem nodup_snoc {l : List String} {k : String} (h : l.Nodup) (hk : k ∉ l) :
    (l ++ [k]).Nodup := by
  rw [List.nodup_append]
  exact ⟨h, List.nodup_singleton k, by intro a ha hb; simp at hb; subst hb; exact hk ha⟩

/-- Inserting a fresh, parentless, edgeless node preserves the invariant
(the shape of the non-root branch of the import pass 1). -/
theorem netInv_insert_isolated (m : Network) (fid : String) (thr : ℕ) (val : ℚ)
    (hinv : NetInvV m) (hfid : fid ∉ nodeIds m) :
    NetInvV { m with nodes := aupd m.nodes fid (freshNode thr val []),
                     graph := gensure m.graph fid } := by
  obtain ⟨h1, h2, h3, h4⟩ := hinv
  have hkeys : akeys (aupd m.nodes fid (freshNode thr val [])) = nodeIds m ++ [fid] :=
    nodeIds_aupd_absent m fid _ hfid
  have hview : ∀ c, parentsView
      { m with nodes := aupd m.nodes fid (freshNode thr val []),
               graph := gensure m.graph fid } c =
      if fid = c then [] else parentsView m c := by
    intro c
    show ((alookup (aupd m.nodes fid (freshNode thr val [])) c).map (·.parents)).getD [] = _
    rw [alookup_aupd]
    by_cases h : fid = c
    · simp [h, freshNode]
    · simp only [if_neg h]
      rfl
  have hedge : ∀ p c, edgeTo
      { m with nodes := aupd m.nodes fid (freshNode thr val []),
               graph := gensure m.graph fid } p c ↔ edgeTo m p c := by
    intro p c
    show c ∈ (graphGet (gensure m.graph fid) p).map (·.1) ↔ edgeTo m p c
    rw [graphGet_gensure]
    exact Iff.rfl
  have hnd : (nodeIds
      { m with nodes := aupd m.nodes fid (freshNode thr val []),
               graph := gensure m.graph fid }).Nodup := by
    show (akeys (aupd m.nodes fid (freshNode thr val []))).Nodup
    rw [hkeys]
    exact nodup_snoc h1 hfid
  refine ⟨hnd, akeys_gensure_nodup fid h2, ?_, ?_⟩
  · apply pe_of_view hnd
    intro c q hq
    rw [hview c] at hq
    by_cases h : fid = c
    · rw [if_pos h] at hq
      simp at hq
    · rw [if_neg h] at hq
      show q ∈ akeys (aupd m.nodes fid (freshNode thr val []))
      rw [hkeys]
      exact List.mem_append_left _ (pe_to_view h3 c q hq)
  · intro p c
    rw [hedge p c, hview c]
    by_cases h : fid = c
    · rw [if_pos h]
      subst h
      constructor
      · intro he
        have : p ∈ parentsView m fid := (h4 p fid).mp he
        rw [show parentsView m fid = [] from by
          unfold parentsView
          rw [(alookup_eq_none_iff m.nodes fid).mpr hfid]
          rfl] at this
        simp at this
      · intro hp
        simp at hp
    · rw [if_neg h]
      exact h4 p c

/-- Inserting a fresh node whose single parent is an existing node `pid`,
together with the matching `pid → fid` edge, preserves the invariant (the
shape of `add_node` under a parent and of the root branch of the import). -/
theorem netInv_insert_child (m : Network) (fid pid : String) (thr : ℕ) (val : ℚ)
    (hinv : NetInvV m) (hfid : fid ∉ nodeIds m) (hpid : pid ∈ nodeIds m) :
    NetInvV { m with nodes := aupd m.nodes fid (freshNode thr val [pid]),
                     graph := gpush (gensure m.graph fid) pid (fid, 1) } := by
  obtain ⟨h1, h2, h3, h4⟩ := hinv
  have hkeys : akeys (aupd m.nodes fid (freshNode thr val [pid])) = nodeIds m ++ [fid] :=
    nodeIds_aupd_absent m fid _ hfid
  have hview : ∀ c, parentsView
      { m with nodes := aupd m.nodes fid (freshNode thr val [pid]),
               graph := gpush (gensure m.graph fid) pid (fid, 1) } c =
      if fid = c then [pid] else parentsView m c := by
    intro c
    show ((alookup (aupd m.nodes fid (freshNode thr val [pid])) c).map (·.parents)).getD [] = _
    rw [alookup_aupd]
    by_cases h : fid = c
    · simp [h, freshNode]
    · simp only [if_neg h]
      rfl
  have hedge : ∀ p c, edgeTo
      { m with nodes := aupd m.nodes fid (freshNode thr val [pid]),
               graph := gpush (gensure m.graph fid) pid (fid, 1) } p c ↔
      (if pid = p then c ∈ (graphGet m.graph p).map (·.1) ∨ c = fid
       else c ∈ (graphGet m.graph p).map (·.1)) := by
    intro p c
    show c ∈ (graphGet (gpush (gensure m.graph fid) pid (fid, 1)) p).map (·.1) ↔
      (if pid = p then c ∈ (graphGet m.graph p).map (·.1) ∨ c = fid
       else c ∈ (graphGet m.graph p).map (·.1))
    rw [graphGet_gpush, graphGet_gensure]
    by_cases h : pid = p
    · rw [if_pos h, if_pos h]
      simp
    · rw [if_neg h, if_neg h]
  have hnd : (nodeIds
      { m with nodes := aupd m.nodes fid (freshNode thr val [pid]),
               graph := gpush (gensure m.graph fid) pid (fid, 1) }).Nodup := by
    show (akeys (aupd m.nodes fid (freshNode thr val [pid]))).Nodup
    rw [hkeys]
    exact nodup_snoc h1 hfid
  refine ⟨hnd, akeys_gpush_nodup pid (fid, 1) (akeys_gensure_nodup fid h2), ?_, ?_⟩
  · apply pe_of_view hnd
    intro c q hq
    rw [hview c] at hq
    show q ∈ akeys (aupd m.nodes fid (freshNode thr val [pid]))
    rw [hkeys]
    by_cases h : fid = c
    · rw [if_pos h] at hq
      simp only [List.mem_singleton] at hq
      subst hq
      exact List.mem_append_left _ hpid
    · rw [if_neg h] at hq
      exact List.mem_append_left _ (pe_to_view h3 c q hq)
  · intro p c
    rw [hedge p c, hview c]
    have holdfid : parentsView m fid = [] := by
      unfold parentsView
      rw [(alookup_eq_none_iff m.nodes fid).mpr hfid]
      rfl
    have hnotedge : ∀ p, ¬ edgeTo m p fid := by
      intro p he
      have := (h4 p fid).mp he
      rw [holdfid] at this
      simp at this
    by_cases hc : fid = c
    · subst hc
      rw [if_pos rfl]
      by_cases hp : pid = p
      · subst hp
        rw [if_pos rfl]
        simp
      · rw [if_neg hp]
        constructor
        · intro he
          exact absurd he (hnotedge p)
        · intro hm
          simp only [List.mem_singleton] at hm
          exact absurd hm.symm hp
    · rw [if_neg hc]
      by_cases hp : pid = p
      · subst hp
        rw [if_pos rfl]
        constructor
        · intro he
          rcases he with he | he
          · exact (h4 pid c).mp he
          · exact absurd he.symm hc
        · intro hm
          exact Or.inl ((h4 pid c).mpr hm)
      · rw [if_neg hp]
        exact h4 p c

theorem freshNode_append_parent (thr : ℕ) (val : ℚ) (pid : String) :
    (fun nd => { nd with parents := nd.parents ++ [pid] }) (freshNode thr val []) =
      freshNode thr val [pid] := rfl

/-- `add_node` preserves the store/graph consistency invariant. -/
theorem netInv_add_node (net : Network) (hinv : NetInv net)
    (pid nid : Option String) (v : Option ℚ) (net' : Network) (fid : String)
    (h : add_node net pid nid v = .ok (net', fid)) : NetInv net' := by
  rw [netInv_iff_view] at hinv
  unfold add_node at h
  by_cases hc : pid.isNone ∧ ¬ net.nodes.isEmpty
  · rw [if_pos hc] at h
    exact absurd h (by simp)
  rw [if_neg hc] at h
  cases pid with
  | none =>
    have hnil : net.nodes = [] := by
      rcases Decidable.em (net.nodes.isEmpty = true) with he | he
      · exact List.isEmpty_iff.mp he
      · exact absurd ⟨rfl, he⟩ hc
    simp only [Except.ok.injEq] at h
    unfold addNodeCore at h
    simp only [Prod.mk.injEq] at h
    obtain ⟨hnet, -⟩ := h
    rw [← hnet]
    apply NetInv_update
    rw [netInv_iff_view]
    exact netInv_insert_isolated net _ _ _ hinv (by rw [show nodeIds net = akeys net.nodes from rfl, hnil]; simp [akeys])
  | some p =>
    have h2 : (if (alookup net.nodes p).isNone then
          (Except.error "Parent node does not exist" : Except String (Network × String))
        else .ok (addNodeCore net (some p) nid v)) = .ok (net', fid) := h
    by_cases hpe : (alookup net.nodes p).isNone
    · rw [if_pos hpe] at h2
      exact absurd h2 (by simp)
    rw [if_neg hpe] at h2
    have hpid : p ∈ nodeIds net := by
      rw [show nodeIds net = akeys net.nodes from rfl, ← alookup_isSome_iff]
      cases hx : alookup net.nodes p with
      | none => exact absurd (by rw [hx]; rfl) hpe
      | some _ => rfl
    simp only [Except.ok.injEq] at h2
    unfold addNodeCore at h2
    simp only [Prod.mk.injEq] at h2
    obtain ⟨hnet, -⟩ := h2
    rw [← hnet]
    apply NetInv_update
    rw [netInv_iff_view]
    rw [amod_aupd]
    exact netInv_insert_child net _ p _ _ hinv
      (by cases nid <;> exact generate_unique_id_fresh net _) hpid

/-! `remove_node` and the invariant: characterising the parent-unlink fold. -/

theorem filter_ne_idem (es : EdgeList) (nid : String) :
    ((es.filter (fun e => e.1 ≠ nid)).filter (fun e => e.1 ≠ nid)) =
      es.filter (fun e => e.1 ≠ nid) := by
  apply List.filter_eq_self.mpr
  intro a ha
  exact (List.mem_filter.mp ha).2

theorem unlink_step (g : List (String × EdgeList)) (q nid p : String) :
    graphGet (if (alookup g q).isSome then
        amod g q (fun es => es.filter (fun e => e.1 ≠ nid)) else g) p =
      if q = p then (graphGet g p).filter (fun e => e.1 ≠ nid) else graphGet g p := by
  by_cases hs : (alookup g q).isSome
  · rw [if_pos hs]
    show (alookup (amod g q (fun es => es.filter (fun e => e.1 ≠ nid))) p).getD [] = _
    rw [alookup_amod]
    by_cases h : q = p
    · subst h
      rw [if_pos rfl, if_pos rfl]
      cases hx : alookup g q with
      | none => rw [hx] at hs; simp at hs
      | some es =>
        show ((some es).map (fun es => es.filter (fun e => e.1 ≠ nid))).getD [] = _
        show es.filter (fun e => e.1 ≠ nid) = ((alookup g q).getD []).filter _
        rw [hx]
        rfl
    · rw [if_neg h, if_neg h]
      rfl
  · rw [if_neg hs]
    have hx : alookup g q = none := Option.not_isSome_iff_eq_none.mp hs
    by_cases h : q = p
    · subst h
      rw [if_pos rfl]
      show (alookup g q).getD [] = ((alookup g q).getD []).filter _
      rw [hx]
      rfl
    · rw [if_neg h]

theorem graphGet_unlink (ps : List String) (nid : String) :
    ∀ g p, graphGet (ps.foldl (fun g q => if (alookup g q).isSome then
        amod g q (fun es => es.filter (fun e => e.1 ≠ nid)) else g) g) p =
      if p ∈ ps then (graphGet g p).filter (fun e => e.1 ≠ nid) else graphGet g p := by
  induction ps with
  | nil =>
    intro g p
    simp
  | cons q rest ih =>
    intro g p
    rw [List.foldl_cons, ih, unlink_step]
    by_cases hqp : q = p
    · subst hqp
      by_cases hr : q ∈ rest
      · rw [if_pos hr, if_pos rfl, if_pos (List.mem_cons_self q rest), filter_ne_idem]
      · rw [if_neg hr, if_pos rfl, if_pos (List.mem_cons_self q rest)]
    · by_cases hr : p ∈ rest
      · rw [if_pos hr, if_neg hqp, if_pos (List.mem_cons_of_mem q hr)]
      · rw [if_neg hr, if_neg hqp, if_neg (by
          intro hm
          rcases List.mem_cons.mp hm with hm | hm
          · exact hqp hm.symm
          · exact hr hm)]

theorem akeys_unlink (ps : List String) (nid : String) :
    ∀ g : List (String × EdgeList), akeys (ps.foldl (fun g q => if (alookup g q).isSome then
        amod g q (fun es => es.filter (fun e => e.1 ≠ nid)) else g) g) = akeys g := by
  induction ps with
  | nil => intro g; rfl
  | cons q rest ih =>
    intro g
    rw [List.foldl_cons, ih]
    by_cases hs : (alookup g q).isSome
    · rw [if_pos hs, akeys_amod]
    · rw [if_neg hs]

theorem mem_akeys_aerase {α : Type} {l : List (String × α)} (hnd : (akeys l).Nodup)
    {q nid : String} (hq : q ∈ akeys l) (hne : q ≠ nid) : q ∈ akeys (aerase l nid) := by
  rw [← alookup_isSome_iff] at hq ⊢
  rw [alookup_aerase hnd]
  rw [if_neg (fun h => hne h.symm)]
  exact hq

/-- Erasing an existing leaf node together with the edges pointing at it
preserves the invariant (the shape of `remove_node`). -/
theorem netInv_erase (net : Network) (hinv : NetInvV net) (nid : String) (nd : NodeRec)
    (hx : alookup net.nodes nid = some nd) (hleaf : graphGet net.graph nid = []) :
    NetInvV
      { net with
          nodes := aerase net.nodes nid,
          graph := aerase (nd.parents.foldl (fun g p => if (alookup g p).isSome then
            amod g p (fun es => es.filter (fun e => e.1 ≠ nid)) else g) net.graph) nid } := by
  obtain ⟨h1, h2, h3, h4⟩ := hinv
  have hGkeys : akeys (nd.parents.foldl (fun g p => if (alookup g p).isSome then
      amod g p (fun es => es.filter (fun e => e.1 ≠ nid)) else g) net.graph) = akeys net.graph :=
    akeys_unlink nd.parents nid net.graph
  have hGnd : (akeys (nd.parents.foldl (fun g p => if (alookup g p).isSome then
      amod g p (fun es => es.filter (fun e => e.1 ≠ nid)) else g) net.graph)).Nodup := by
    rw [hGkeys]; exact h2
  have hnd' : (nodeIds
      { net with
          nodes := aerase net.nodes nid,
          graph := aerase (nd.parents.foldl (fun g p => if (alookup g p).isSome then
            amod g p (fun es => es.filter (fun e => e.1 ≠ nid)) else g) net.graph) nid }).Nodup := by
    show (akeys (aerase net.nodes nid)).Nodup
    exact nodup_aerase nid h1
  have hview : ∀ c, parentsView
      { net with
          nodes := aerase net.nodes nid,
          graph := aerase (nd.parents.foldl (fun g p => if (alookup g p).isSome then
            amod g p (fun es => es.filter (fun e => e.1 ≠ nid)) else g) net.graph) nid } c =
      if nid = c then [] else parentsView net c := by
    intro c
    show ((alookup (aerase net.nodes nid) c).map (·.parents)).getD [] = _
    rw [alookup_aerase h1]
    by_cases h : nid = c
    · simp [h]
    · rw [if_neg h, if_neg h]
      rfl
  have hG : ∀ p, graphGet (aerase (nd.parents.foldl (fun g p => if (alookup g p).isSome then
      amod g p (fun es => es.filter (fun e => e.1 ≠ nid)) else g) net.graph) nid) p =
      if nid = p then [] else
        (if p ∈ nd.parents then (graphGet net.graph p).filter (fun e => e.1 ≠ nid)
         else graphGet net.graph p) := by
    intro p
    show (alookup (aerase _ nid) p).getD [] = _
    rw [alookup_aerase hGnd]
    by_cases h : nid = p
    · rw [if_pos h, if_pos h]
      rfl
    · rw [if_neg h, if_neg h]
      exact graphGet_unlink nd.parents nid net.graph p
  have holdview : parentsView net nid = nd.parents := by
    unfold parentsView
    rw [hx]
    rfl
  have hnoedge : ∀ c, ¬ edgeTo net nid c := by
    intro c hme
    unfold edgeTo at hme
    rw [hleaf] at hme
    simp at hme
  refine ⟨hnd', ?_, ?_, ?_⟩
  · show (akeys (aerase (nd.parents.foldl _ net.graph) nid)).Nodup
    exact nodup_aerase nid hGnd
  · apply pe_of_view hnd'
    intro c q hq
    rw [hview c] at hq
    by_cases h : nid = c
    · rw [if_pos h] at hq
      simp at hq
    · rw [if_neg h] at hq
      have hq2 : q ∈ nodeIds net := pe_to_view h3 c q hq
      have hqne : q ≠ nid := by
        intro hqnid
        subst hqnid
        exact hnoedge c ((h4 q c).mpr hq)
      show q ∈ akeys (aerase net.nodes nid)
      exact mem_akeys_aerase h1 hq2 hqne
  · intro p c
    have hstep : edgeTo
        { net with
            nodes := aerase net.nodes nid,
            graph := aerase (nd.parents.foldl (fun g p => if (alookup g p).isSome then
              amod g p (fun es => es.filter (fun e => e.1 ≠ nid)) else g) net.graph) nid } p c ↔
        c ∈ (graphGet (aerase (nd.parents.foldl (fun g p => if (alookup g p).isSome then
          amod g p (fun es => es.filter (fun e => e.1 ≠ nid)) else g) net.graph) nid) p).map (·.1) :=
      Iff.rfl
    rw [hstep, hG p, hview c]
    by_cases hp : nid = p
    · rw [if_pos hp]
      subst hp
      simp only [List.map_nil, List.not_mem_nil, false_iff]
      by_cases hc : nid = c
      · rw [if_pos hc]
        simp
      · rw [if_neg hc]
        intro hm
        exact hnoedge c ((h4 nid c).mpr hm)
    · rw [if_neg hp]
      by_cases hc : nid = c
      · rw [if_pos hc]
        subst hc
        simp only [List.not_mem_nil, iff_false]
        by_cases hps : p ∈ nd.parents
        · rw [if_pos hps]
          intro hm
          simp only [List.mem_map, List.mem_filter] at hm
          obtain ⟨e, ⟨-, hne⟩, heq⟩ := hm
          rw [heq] at hne
          simp at hne
        · rw [if_neg hps]
          intro hm
          have hview2 := (h4 p nid).mp hm
          rw [holdview] at hview2
          exact hps hview2
      · rw [if_neg hc]
        by_cases hps : p ∈ nd.parents
        · rw [if_pos hps]
          constructor
          · intro hm
            simp only [List.mem_map, List.mem_filter] at hm
            obtain ⟨e, ⟨he, -⟩, heq⟩ := hm
            exact (h4 p c).mp (List.mem_map.mpr ⟨e, he, heq⟩)
          · intro hm
            have he := (h4 p c).mpr hm
            rcases List.mem_map.mp he with ⟨e, he2, heq⟩
            refine List.mem_map.mpr ⟨e, List.mem_filter.mpr ⟨he2, ?_⟩, heq⟩
            simp only [decide_eq_true_eq]
            rw [heq]
            exact fun h => hc h.symm
        · rw [if_neg hps]
          exact h4 p c

/-- `remove_node` preserves the store/graph consistency invariant. -/
theorem netInv_remove_node (net : Network) (hinv : NetInv net) (nid : String)
    (net' : Network) (h : remove_node net nid = .ok net') : NetInv net' := by
  rw [netInv_iff_view] at hinv
  unfold remove_node at h
  by_cases he : (alookup net.nodes nid).isNone
  · rw [if_pos he] at h
    exact absurd h (by simp)
  rw [if_neg he] at h
  by_cases hch : graphGet net.graph nid ≠ []
  · rw [if_pos hch] at h
    exact absurd h (by simp)
  rw [if_neg hch] at h
  have hleaf : graphGet net.graph nid = [] := not_not.mp hch
  cases hx : alookup net.nodes nid with
  | none => exact absurd (by rw [hx]; rfl) he
  | some nd =>
    simp only [Except.ok.injEq] at h
    rw [hx] at h
    simp only [Option.map_some', Option.getD_some] at h
    rw [← h]
    apply NetInv_update
    rw [netInv_iff_view]
    exact netInv_erase net hinv nid nd hx hleaf

/-! The subtree import and the invariant.  Pass 1 only inserts fresh nodes
(as isolated nodes, or as children of the existing attach parent), so it
preserves the invariant and keeps every minted id in the store; pass 2 links
mapped endpoints, mirroring each new edge in the target's parents list. -/

theorem importStep_netInv (fns : List (String × Option ℚ))
    (fg : List (String × List (String × Option ℚ))) (roots : List String)
    (parent_id pfx : String) (st : ImpState) (o : String) (q : List String)
    (h1 : NetInvV st.net) (hp : parent_id ∈ nodeIds st.net)
    (hm : ∀ mn ∈ st.mapping, mn.2 ∈ nodeIds st.net) :
    NetInvV (importStep fns fg roots parent_id pfx st o q).net ∧
    parent_id ∈ nodeIds (importStep fns fg roots parent_id pfx st o q).net ∧
    ∀ mn ∈ (importStep fns fg roots parent_id pfx st o q).mapping,
      mn.2 ∈ nodeIds (importStep fns fg roots parent_id pfx st o q).net := by
  unfold importStep
  by_cases hskip : o ∈ st.processed ∨ (alookup fns o).isNone
  · rw [if_pos hskip]
    exact ⟨h1, hp, hm⟩
  · rw [if_neg hskip]
    simp only
    have hfresh := generate_unique_id_fresh st.net (pfx ++ o)
    have hkeys : ∀ r : NodeRec,
        akeys (aupd st.net.nodes (generate_unique_id st.net (pfx ++ o)) r) =
          nodeIds st.net ++ [generate_unique_id st.net (pfx ++ o)] :=
      fun r => nodeIds_aupd_absent st.net _ r hfresh
    by_cases hroot : o ∈ roots
    · simp only [hroot, if_true]
      refine ⟨?_, ?_, ?_⟩
      · exact netInv_insert_child st.net _ parent_id _ _ h1 hfresh hp
      · show parent_id ∈ akeys (aupd st.net.nodes _ _)
        rw [hkeys]
        exact List.mem_append_left _ hp
      · intro mn hmn
        show mn.2 ∈ akeys (aupd st.net.nodes _ _)
        rw [hkeys]
        rcases List.mem_append.mp hmn with hmn | hmn
        · exact List.mem_append_left _ (hm mn hmn)
        · simp only [List.mem_singleton] at hmn
          subst hmn
          exact List.mem_append_right _ (List.mem_singleton_self _)
    · simp only [hroot, if_false]
      refine ⟨?_, ?_, ?_⟩
      · exact netInv_insert_isolated st.net _ _ _ h1 hfresh
      · show parent_id ∈ akeys (aupd st.net.nodes _ _)
        rw [hkeys]
        exact List.mem_append_left _ hp
      · intro mn hmn
        show mn.2 ∈ akeys (aupd st.net.nodes _ _)
        rw [hkeys]
        rcases List.mem_append.mp hmn with hmn | hmn
        · exact List.mem_append_left _ (hm mn hmn)
        · simp only [List.mem_singleton] at hmn
          subst hmn
          exact List.mem_append_right _ (List.mem_singleton_self _)

theorem importLoop_netInv (fns : List (String × Option ℚ))
    (fg : List (String × List (String × Option ℚ))) (roots : List String)
    (parent_id pfx : String) :
    ∀ (f : ℕ) (st : ImpState),
      NetInvV st.net → parent_id ∈ nodeIds st.net →
      (∀ mn ∈ st.mapping, mn.2 ∈ nodeIds st.net) →
      NetInvV (importLoop fns fg roots parent_id pfx f st).net ∧
      parent_id ∈ nodeIds (importLoop fns fg roots parent_id pfx f st).net ∧
      ∀ mn ∈ (importLoop fns fg roots parent_id pfx f st).mapping,
        mn.2 ∈ nodeIds (importLoop fns fg roots parent_id pfx f st).net := by
  intro f
  induction f with
  | zero =>
    intro st h1 h2 h3
    exact ⟨h1, h2, h3⟩
  | succ f ih =>
    intro st h1 h2 h3
    unfold importLoop
    cases hq : st.queue with
    | nil => exact ⟨h1, h2, h3⟩
    | cons o q =>
      obtain ⟨g1, g2, g3⟩ := importStep_netInv fns fg roots parent_id pfx st o q h1 h2 h3
      exact ih _ g1 g2 g3

/-- Recreating an edge whose target already lists the source as a parent
keeps the two views agreeing. -/
theorem netInv_add_edge_existing (net : Network) (src tgt : String) (cap : ℚ) (ntd : NodeRec)
    (h1 : NetInvV net) (hx : alookup net.nodes tgt = some ntd) (hin : src ∈ ntd.parents) :
    NetInvV { net with graph := gpush net.graph src (tgt, cap) } := by
  obtain ⟨hn1, hn2, hn3, hn4⟩ := h1
  refine ⟨hn1, akeys_gpush_nodup src (tgt, cap) hn2, hn3, ?_⟩
  intro p c
  have hstep : edgeTo { net with graph := gpush net.graph src (tgt, cap) } p c ↔
      c ∈ (graphGet (gpush net.graph src (tgt, cap)) p).map (·.1) := Iff.rfl
  have hv : parentsView { net with graph := gpush net.graph src (tgt, cap) } c =
      parentsView net c := rfl
  rw [hstep, graphGet_gpush, hv]
  by_cases hp : src = p
  · subst hp
    rw [if_pos rfl]
    simp only [List.map_append, List.mem_append, List.map_cons, List.map_nil,
      List.mem_singleton]
    constructor
    · rintro (hc | hc)
      · exact (hn4 src c).mp hc
      · rw [hc, show parentsView net tgt = ntd.parents from by
          unfold parentsView
          rw [hx]
          rfl]
        exact hin
    · intro hvp
      exact Or.inl ((hn4 src c).mpr hvp)
  · rw [if_neg hp]
    exact hn4 p c

/-- Recreating an edge and appending the source to the target's parents
keeps the two views agreeing. -/
theorem netInv_link_new (net : Network) (src tgt : String) (cap : ℚ) (ntd : NodeRec)
    (h1 : NetInvV net) (hs : src ∈ nodeIds net) (hx : alookup net.nodes tgt = some ntd) :
    NetInvV
      { net with
          graph := gpush net.graph src (tgt, cap),
          nodes := amod net.nodes tgt
            (fun nd => { nd with parents := nd.parents ++ [src] }) } := by
  obtain ⟨hn1, hn2, hn3, hn4⟩ := h1
  have hk : (nodeIds
      { net with
          graph := gpush net.graph src (tgt, cap),
          nodes := amod net.nodes tgt
            (fun nd => { nd with parents := nd.parents ++ [src] }) }) = nodeIds net :=
    akeys_amod net.nodes tgt _
  have holdv : parentsView net tgt = ntd.parents := by
    unfold parentsView
    rw [hx]
    rfl
  have hview : ∀ c, parentsView
      { net with
          graph := gpush net.graph src (tgt, cap),
          nodes := amod net.nodes tgt
            (fun nd => { nd with parents := nd.parents ++ [src] }) } c =
      if tgt = c then ntd.parents ++ [src] else parentsView net c := by
    intro c
    show ((alookup (amod net.nodes tgt (fun nd => { nd with parents := nd.parents ++ [src] }))
      c).map (·.parents)).getD [] = _
    rw [alookup_amod]
    by_cases h : tgt = c
    · rw [if_pos h, if_pos h, hx]
      rfl
    · rw [if_neg h, if_neg h]
      rfl
  have hnd' : (nodeIds
      { net with
          graph := gpush net.graph src (tgt, cap),
          nodes := amod net.nodes tgt
            (fun nd => { nd with parents := nd.parents ++ [src] }) }).Nodup := by
    rw [hk]
    exact hn1
  refine ⟨hnd', akeys_gpush_nodup src (tgt, cap) hn2, ?_, ?_⟩
  · apply pe_of_view hnd'
    intro c q hq
    rw [hview c] at hq
    rw [hk]
    by_cases h : tgt = c
    · rw [if_pos h] at hq
      rcases List.mem_append.mp hq with hq | hq
      · have := pe_to_view hn3 tgt q (by rw [holdv]; exact hq)
        exact this
      · simp only [List.mem_singleton] at hq
        subst hq
        exact hs
    · rw [if_neg h] at hq
      exact pe_to_view hn3 c q hq
  · intro p c
    have hstep : edgeTo
        { net with
            graph := gpush net.graph src (tgt, cap),
            nodes := amod net.nodes tgt
              (fun nd => { nd with parents := nd.parents ++ [src] }) } p c ↔
        c ∈ (graphGet (gpush net.graph src (tgt, cap)) p).map (·.1) := Iff.rfl
    rw [hstep, graphGet_gpush, hview c]
    by_cases hp : src = p
    · subst hp
      rw [if_pos rfl]
      simp only [List.map_append, List.mem_append, List.map_cons, List.map_nil,
        List.mem_singleton]
      by_cases hc : tgt = c
      · subst hc
        rw [if_pos rfl]
        simp
      · rw [if_neg hc]
        constructor
        · rintro (h | h)
          · exact (hn4 src c).mp h
          · exact absurd h.symm hc
        · intro h
          exact Or.inl ((hn4 src c).mpr h)
    · rw [if_neg hp]
      by_cases hc : tgt = c
      · subst hc
        rw [if_pos rfl]
        constructor
        · intro h
          have := (hn4 p tgt).mp h
          rw [holdv] at this
          exact List.mem_append_left _ this
        · intro h
          rcases List.mem_append.mp h with h | h
          · exact (hn4 p tgt).mpr (by rw [holdv]; exact h)
          · simp only [List.mem_singleton] at h
            exact absurd h.symm hp
      · rw [if_neg hc]
        exact hn4 p c

theorem netInv_importEdgeStep (mapping : List (String × String)) (src : String)
    (net : Network) (tc : String × Option ℚ)
    (h1 : NetInvV net) (hs : src ∈ nodeIds net)
    (ht : ∀ t, alookup mapping tc.1 = some t → t ∈ nodeIds net) :
    NetInvV (importEdgeStep mapping src net tc) := by
  unfold importEdgeStep
  split
  · exact h1
  · rename_i tgt hmt
    have htgt : tgt ∈ nodeIds net := ht tgt hmt
    split
    · rename_i hx
      exfalso
      rw [alookup_eq_none_iff] at hx
      exact hx htgt
    · rename_i ntd hx
      split
      · rename_i hin
        exact netInv_add_edge_existing net src tgt (tc.2.getD 1) ntd h1 hx hin
      · rename_i hin
        exact netInv_link_new net src tgt (tc.2.getD 1) ntd h1 hs hx

theorem netInv_edgefold (mapping : List (String × String)) (src : String) :
    ∀ (es : List (String × Option ℚ)) (net : Network), NetInvV net → src ∈ nodeIds net →
      (∀ o t, alookup mapping o = some t → t ∈ nodeIds net) →
      NetInvV (es.foldl (importEdgeStep mapping src) net) := by
  intro es
  induction es with
  | nil =>
    intro net h _ _
    exact h
  | cons e rest ih =>
    intro net h hs htm
    rw [List.foldl_cons]
    have hkeys : nodeIds (importEdgeStep mapping src net e) = nodeIds net :=
      importEdgeStep_keys mapping src net e
    exact ih _ (netInv_importEdgeStep mapping src net e h hs (fun t h2 => htm e.1 t h2))
      (by rw [hkeys]; exact hs) (fun o t h2 => by rw [hkeys]; exact htm o t h2)

theorem netInv_edgesfold (fg : List (String × List (String × Option ℚ)))
    (mapping : List (String × String)) :
    ∀ (ms : List (String × String)) (net : Network), NetInvV net →
      (∀ mn ∈ ms, mn.2 ∈ nodeIds net) →
      (∀ o t, alookup mapping o = some t → t ∈ nodeIds net) →
      NetInvV (ms.foldl (fun net om =>
        ((alookup fg om.1).getD []).foldl (importEdgeStep mapping om.2) net) net) := by
  intro ms
  induction ms with
  | nil =>
    intro net h _ _
    exact h
  | cons om rest ih =>
    intro net h hsrc htgt
    rw [List.foldl_cons]
    have hkeys : nodeIds (((alookup fg om.1).getD []).foldl (importEdgeStep mapping om.2) net) =
        nodeIds net :=
      foldl_keys_preserve _ _ (fun m tc => importEdgeStep_keys mapping om.2 m tc) net
    apply ih
    · exact netInv_edgefold mapping om.2 _ net h (hsrc om (List.mem_cons_self _ _)) htgt
    · intro mn hmn
      rw [hkeys]
      exact hsrc mn (List.mem_cons_of_mem _ hmn)
    · intro o t h2
      rw [hkeys]
      exact htgt o t h2

theorem netInv_importEdges (fg : List (String × List (String × Option ℚ)))
    (mapping : List (String × String)) (net : Network) (h : NetInvV net)
    (hm : ∀ mn ∈ mapping, mn.2 ∈ nodeIds net) : NetInvV (importEdges fg mapping net) := by
  unfold importEdges
  exact netInv_edgesfold fg mapping mapping net h hm
    (fun o t h2 => hm (o, t) (alookup_mem h2))

/-- `add_subtree_from_data` preserves the store/graph consistency
invariant. -/
theorem netInv_add_subtree (net : Network) (hinv : NetInv net) (pid : String)
    (frag : Fragment) (stamp : String) (net' : Network) (ids : List String)
    (h : add_subtree_from_data net pid frag stamp = .ok (net', ids)) : NetInv net' := by
  obtain ⟨fno, fgo⟩ := frag
  by_cases hp : (alookup net.nodes pid).isNone = true
  · cases fno with
    | none =>
      rw [add_subtree_reduce_nonodes, if_pos hp] at h
      exact absurd h (by simp)
    | some fns =>
      cases fgo with
      | none =>
        rw [add_subtree_reduce_nograph, if_pos hp] at h
        exact absurd h (by simp)
      | some fg =>
        rw [add_subtree_reduce, if_pos hp] at h
        exact absurd h (by simp)
  · cases fno with
    | none =>
      rw [add_subtree_reduce_nonodes, if_neg hp] at h
      exact absurd h (by simp)
    | some fns =>
      cases fgo with
      | none =>
        rw [add_subtree_reduce_nograph, if_neg hp] at h
        exact absurd h (by simp)
      | some fg =>
        rw [add_subtree_reduce, if_neg hp] at h
        by_cases hemp : fns.isEmpty = true
        · rw [if_pos hemp] at h
          simp only [Except.ok.injEq, Prod.mk.injEq] at h
          obtain ⟨h1, -⟩ := h
          rw [← h1]
          exact hinv
        · rw [if_neg hemp] at h
          by_cases hroots : (fragLocalRoots fns fg).isEmpty = true
          · rw [if_pos hroots] at h
            exact absurd h (by simp)
          · rw [if_neg hroots] at h
            simp only [Except.ok.injEq, Prod.mk.injEq] at h
            obtain ⟨h1, -⟩ := h
            rw [← h1]
            apply NetInv_update
            rw [netInv_iff_view]
            have hpid : pid ∈ nodeIds net := by
              rw [show nodeIds net = akeys net.nodes from rfl, ← alookup_isSome_iff]
              cases hx : alookup net.nodes pid with
              | none => exact absurd (by rw [hx]; rfl) hp
              | some _ => rfl
            obtain ⟨g1, g2, g3⟩ := importLoop_netInv fns fg (fragLocalRoots fns fg) pid
              (pid ++ "_sub" ++ stamp ++ "_")
              ((fragLocalRoots fns fg).length + (fg.map (·.2.length)).sum + 1)
              { net := net, mapping := [], added := [], processed := [],
                queue := fragLocalRoots fns fg }
              ((netInv_iff_view net).mp hinv) hpid
              (fun mn hmn => absurd hmn (List.not_mem_nil mn))
            exact netInv_importEdges fg _ _ g1 g3

/-- C9, the agreement alone is not an invariant of the mutators: `ghostNet`
satisfies `edge(p→c) ⟺ p ∈ c.parents` (the `ghost → c` edge matches `c`'s
recorded parent `ghost`), yet after a successful `add_node` the recompute's
parent clean-up drops `ghost` from `c.parents` (`ghost` is not a stored
node) while the `ghost → c` adjacency entry survives, so the agreement is
broken in the result. -/
theorem claim_C9_counterexample :
    Agrees ghostNet ∧
    add_node ghostNet (some "r") none none = .ok (exGhostNet, "r.1") ∧
    ¬ Agrees exGhostNet := by
  refine ⟨agreesB_to_agrees ghostNet (by with_unfolding_all decide),
    by with_unfolding_all decide, ?_⟩
  intro hA
  rw [agrees_iff_view] at hA
  have h := (hA "ghost" "c").mp (by with_unfolding_all decide)
  exact absurd h (by with_unfolding_all decide)

/-- C9 (amended): the graph/parents agreement alone is not preserved by the
mutating operations (see the counterexample, where a `ghost` parent entry is
cleaned while its edge survives).  The operations do preserve the full
consistency invariant `NetInv` — unique node-store and adjacency keys, every
recorded parent stored, and the edge/parents agreement: whenever
`add_node`, `remove_node` or `add_subtree_from_data` succeeds on a state
satisfying the invariant, the resulting state satisfies it as well. -/
theorem claim_C9 (net : Network) (hinv : NetInv net) :
    (∀ pid nid v net' fid, add_node net pid nid v = .ok (net', fid) → NetInv net') ∧
    (∀ nid net', remove_node net nid = .ok net' → NetInv net') ∧
    (∀ pid frag stamp net' ids,
      add_subtree_from_data net pid frag stamp = .ok (net', ids) → NetInv net') :=
  ⟨fun pid nid v net' fid h => netInv_add_node net hinv pid nid v net' fid h,
   fun nid net' h => netInv_remove_node net hinv nid net' h,
   fun pid frag stamp net' ids h => netInv_add_subtree net hinv pid frag stamp net' ids h⟩

theorem foldr_max_congr (ps : List String) (F G : String → ℕ)
    (h : ∀ q ∈ ps, F q = G q) :
    ps.foldr (fun q m => max (F q) m) 0 = ps.foldr (fun q m => max (G q) m) 0 := by
  induction ps with
  | nil => rfl
  | cons q t ih =>
    simp only [List.foldr_cons]
    rw [h q (List.mem_cons_self _ _), ih (fun x hx => h x (List.mem_cons_of_mem _ hx))]

theorem foldr_max_zero (ps : List String) (F : String → ℕ) (h : ∀ q ∈ ps, F q = 0) :
    ps.foldr (fun q m => max (F q) m) 0 = 0 := by
  induction ps with
  | nil => rfl
  | cons q t ih =>
    simp only [List.foldr_cons]
    rw [h q (List.mem_cons_self _ _), ih (fun x hx => h x (List.mem_cons_of_mem _ hx))]
    rfl

theorem foldr_max_pointwise (ps : List String) (F G : String → ℕ) :
    ps.foldr (fun q m => max (max (F q) (G q)) m) 0 =
      max (ps.foldr (fun q m => max (F q) m) 0) (ps.foldr (fun q m => max (G q) m) 0) := by
  induction ps with
  | nil => rfl
  | cons q t ih =>
    simp only [List.foldr_cons]
    rw [ih]
    omega

theorem foldr_max_single (ps : List String) (n : String) (a : ℕ) :
    ps.foldr (fun q m => max (if q = n then a else 0) m) 0 = if n ∈ ps then a else 0 := by
  induction ps with
  | nil => rfl
  | cons q t ih =>
    simp only [List.foldr_cons]
    rw [ih]
    by_cases hq : q = n
    · subst hq
      rw [if_pos rfl, if_pos (List.mem_cons_self _ _)]
      by_cases hm : q ∈ t
      · rw [if_pos hm]
        omega
      · rw [if_neg hm]
        omega
    · rw [if_neg hq]
      by_cases hm : n ∈ t
      · rw [if_pos hm, if_pos (List.mem_cons_of_mem _ hm)]
        omega
      · rw [if_neg hm, if_neg (by
          intro hc
          rcases List.mem_cons.mp hc with hc | hc
          · exact hq hc.symm
          · exact hm hc)]
        omega

theorem foldr_max_succ (ps : List String) (f : String → ℕ) :
    ps.foldr (fun q m => max (f q + 1) m) 0 =
      if ps = [] then 0 else (ps.map f).foldr max 0 + 1 := by
  induction ps with
  | nil => rfl
  | cons q t ih =>
    simp only [List.foldr_cons, List.map_cons]
    rw [ih]
    by_cases ht : t = []
    · subst ht
      simp
    · rw [if_neg ht, if_neg (by simp)]
      omega

theorem pendK_snoc (P : List String) (n : String) (hn : n ∉ P) (ps : List String) :
    pendK (P ++ [n]) ps + ps.count n = pendK P ps := by
  unfold pendK
  induction ps with
  | nil => rfl
  | cons q t ih =>
    simp only [List.countP_cons, List.count_cons]
    by_cases hq : q = n
    · have hqP : q ∉ P := by rw [hq]; exact hn
      have h1 : (decide (q ∉ P ++ [n])) = false := by
        simp [List.mem_append, hq]
      have h2 : (decide (q ∉ P)) = true := by simpa using hqP
      have h4 : (q == n) = true := by simp [hq]
      rw [h1, h2, h4]
      simp only [Bool.false_eq_true, if_false, if_true]
      omega
    · have h3 : (decide (q ∉ P ++ [n])) = decide (q ∉ P) := by
        simp only [List.mem_append, List.mem_singleton, decide_not]
        congr 1
        simp [hq]
      have h4 : (q == n) = false := by simp [hq]
      rw [h3, h4]
      simp only [Bool.false_eq_true, if_false]
      omega

theorem pendK_nil (ps : List String) : pendK [] ps = ps.length := by
  unfold pendK
  induction ps with
  | nil => rfl
  | cons q t ih =>
    simp only [List.countP_cons, ih, List.length_cons]
    have h : (decide (q ∉ ([] : List String))) = true := by simp
    rw [h]
    simp

theorem pendK_zero_iff (P : List String) (ps : List String) :
    pendK P ps = 0 ↔ ∀ q ∈ ps, q ∈ P := by
  unfold pendK
  rw [List.countP_eq_zero]
  constructor
  · intro h q hq
    have := h q hq
    simpa using this
  · intro h q hq
    simpa using h q hq

theorem ndvalK_all_in (A : List (String × ℕ)) (P : List String) (ps : List String)
    (h : ∀ q ∈ ps, q ∈ P) : ndvalK A P ps = depthEq A ps := by
  unfold ndvalK depthEq
  rw [foldr_max_congr ps _ (fun q => (alookup A q).getD 0 + 1)
    (fun q hq => by rw [if_pos (h q hq)])]
  exact foldr_max_succ ps _

theorem ndvalK_snoc (A : List (String × ℕ)) (P : List String) (n : String) (d : ℕ)
    (hn : n ∉ P) (ps : List String) :
    ndvalK (aupd A n d) (P ++ [n]) ps =
      max (ndvalK (aupd A n d) P ps) (if n ∈ ps then d + 1 else 0) := by
  unfold ndvalK
  rw [foldr_max_congr ps (fun q => if q ∈ P ++ [n] then (alookup (aupd A n d) q).getD 0 + 1 else 0)
    (fun q => max (if q ∈ P then (alookup (aupd A n d) q).getD 0 + 1 else 0)
      (if q = n then d + 1 else 0))
    (fun q _ => by
      show (if q ∈ P ++ [n] then (alookup (aupd A n d) q).getD 0 + 1 else 0) =
        max (if q ∈ P then (alookup (aupd A n d) q).getD 0 + 1 else 0)
          (if q = n then d + 1 else 0)
      by_cases hq : q = n
      · rw [hq]
        rw [if_pos (List.mem_append_right _ (List.mem_singleton_self _)), if_neg hn,
          if_pos rfl]
        rw [alookup_aupd, if_pos rfl]
        simp
      · have hm : q ∈ P ++ [n] ↔ q ∈ P := by
          simp [List.mem_append, hq]
        by_cases hp : q ∈ P
        · rw [if_pos (hm.mpr hp), if_pos hp, if_neg hq]
          omega
        · rw [if_neg (fun hc => hp (hm.mp hc)), if_neg hp, if_neg hq]
          rfl)]
  rw [foldr_max_pointwise, foldr_max_single]

theorem ndvalK_aupd_fresh (A : List (String × ℕ)) (P : List String) (n : String) (d : ℕ)
    (hn : n ∉ P) (ps : List String) :
    ndvalK (aupd A n d) P ps = ndvalK A P ps := by
  unfold ndvalK
  apply foldr_max_congr
  intro q hq
  by_cases hp : q ∈ P
  · rw [if_pos hp, if_pos hp, alookup_aupd, if_neg (by intro h; subst h; exact hn hp)]
  · rw [if_neg hp, if_neg hp]

theorem depthEq_aupd_fresh (A : List (String × ℕ)) (n : String) (d : ℕ)
    (ps : List String) (h : n ∉ ps) :
    depthEq (aupd A n d) ps = depthEq A ps := by
  unfold depthEq
  by_cases he : ps = []
  · rw [if_pos he, if_pos he]
  · rw [if_neg he, if_neg he]
    congr 1
    congr 1
    apply List.map_congr_left
    intro q hq
    rw [alookup_aupd, if_neg (by intro hc; subst hc; exact h hq)]

theorem count_map_fst (l : EdgeList) (c : String) :
    (l.map (·.1)).count c = l.countP (fun e => decide (e.1 = c)) := by
  induction l with
  | nil => rfl
  | cons e t ih =>
    simp only [List.map_cons, List.count_cons, List.countP_cons, ih]
    by_cases h : e.1 = c
    · simp [h]
    · simp [h]

theorem alookup_const_zero (l : List String) (c : String) :
    (alookup (l.map (fun r => (r, (0 : ℕ)))) c).getD 0 = 0 := by
  induction l with
  | nil => rfl
  | cons q t ih =>
    simp only [List.map_cons, alookup]
    by_cases h : q = c
    · simp [h]
    · simp only [if_neg h]
      exact ih

theorem foldr_max_le_mem (ps : List String) (F : String → ℕ) (q : String) (hq : q ∈ ps) :
    F q ≤ ps.foldr (fun x m => max (F x) m) 0 := by
  induction ps with
  | nil => simp at hq
  | cons x t ih =>
    simp only [List.foldr_cons]
    rcases List.mem_cons.mp hq with h | h
    · subst h
      exact Nat.le_max_left _ _
    · exact le_trans (ih h) (Nat.le_max_right _ _)

theorem alookup_self_of_mem_nodup {α : Type} {l : List (String × α)}
    (hnd : (akeys l).Nodup) {pr : String × α} (h : pr ∈ l) :
    alookup l pr.1 = some pr.2 := by
  obtain ⟨a, b⟩ := pr
  exact alookup_of_mem_nodup hnd h

theorem entry_eq_of_nodup {ip : List (String × List String)}
    (hnd : (ip.map (·.1)).Nodup) {pr pr' : String × List String}
    (h1 : pr ∈ ip) (h2 : pr' ∈ ip) (hk : pr.1 = pr'.1) : pr = pr' := by
  have e1 : alookup ip pr.1 = some pr.2 := alookup_of_mem_nodup hnd (by
    obtain ⟨a, b⟩ := pr
    exact h1)
  have e2 : alookup ip pr'.1 = some pr'.2 := alookup_of_mem_nodup hnd (by
    obtain ⟨a, b⟩ := pr'
    exact h2)
  rw [← hk] at e2
  rw [e1] at e2
  obtain ⟨a, b⟩ := pr
  obtain ⟨a2, b2⟩ := pr'
  simp only at hk
  subst hk
  simp only [Option.some.injEq] at e2
  rw [e2]

theorem count_le_cons (x a : String) (l : List String) : l.count x ≤ (a :: l).count x := by
  rw [List.count_cons]
  exact Nat.le_add_right _ _

/-- One `kahnChild` application preserves the drain-step fold invariant. -/
theorem kahnChild_step (ip : List (String × List String)) (n : String) (d : ℕ)
    (L P₀ : List String) (A₀ : List (String × ℕ))
    (hnd : (ip.map (·.1)).Nodup) (hn : n ∉ P₀)
    (hL : ∀ pr ∈ ip, L.count pr.1 = pr.2.count n)
    (c : String) (es' : List String) (st : KState)
    (h : KFoldInv ip n d L P₀ A₀ (c :: es') st) :
    KFoldInv ip n d L P₀ A₀ es' (kahnChild d st c) := by
  obtain ⟨hp, ha, hQ, hQnd, hQP, hK, hI, hQ0, hD, hC⟩ := h
  unfold kahnChild
  split
  · rename_i hx
    have hcids : c ∉ ip.map (·.1) := by
      rw [← hK]
      exact (alookup_eq_none_iff _ _).mp hx
    have hne : ∀ pr ∈ ip, (c :: es').count pr.1 = es'.count pr.1 := by
      intro pr hpr
      apply List.count_cons_of_ne
      intro hc
      exact hcids (by rw [← hc]; exact List.mem_map_of_mem _ hpr)
    refine ⟨hp, ha, hQ, hQnd, hQP, hK, ?_, ?_, ?_, ?_⟩
    · intro pr hpr
      rw [← hne pr hpr]
      exact hI pr hpr
    · intro pr hpr
      rw [← hne pr hpr]
      exact hQ0 pr hpr
    · intro pr hpr
      rw [show es'.count pr.1 = (c :: es').count pr.1 from (hne pr hpr).symm]
      exact hD pr hpr
    · intro x
      exact le_trans (count_le_cons x c es') (hC x)
  · rename_i v hx
    have hcids : c ∈ ip.map (·.1) := by
      rw [← hK, ← alookup_isSome_iff, hx]
      rfl
    obtain ⟨prc, hprc, hcc⟩ := List.mem_map.mp hcids
    have hvc := hI prc hprc
    rw [hcc, hx] at hvc
    simp only [Option.some.injEq, List.count_cons_self] at hvc
    have hv1 : v - 1 = ((pendK (P₀ ++ [n]) prc.2 + es'.count c : ℕ) : Int) := by
      rw [hvc]
      push_cast
      ring
    have hv0 : v - 1 = 0 ↔ pendK (P₀ ++ [n]) prc.2 + es'.count c = 0 := by
      rw [hv1]
      omega
    have hcQ : c ∉ st.queue ∧ c ∉ P₀ ++ [n] := by
      have h0 := hQ0 prc hprc
      rw [hcc] at h0
      have hsum : pendK (P₀ ++ [n]) prc.2 + (c :: es').count c ≠ 0 := by
        rw [List.count_cons_self]
        omega
      have hnor : ¬(c ∈ st.queue ∨ c ∈ P₀ ++ [n]) := fun hor => hsum (h0.mp hor)
      push_neg at hnor
      exact hnor
    have hKmem : c ∈ akeys st.indeg := by
      rw [hK]
      exact hcids
    have hK2 : akeys (aupd st.indeg c (v - 1)) = ip.map (·.1) := by
      rw [akeys_aupd_mem _ _ _ hKmem]
      exact hK
    have hI2 : ∀ pr ∈ ip, alookup (aupd st.indeg c (v - 1)) pr.1 =
        some ((pendK (P₀ ++ [n]) pr.2 + es'.count pr.1 : ℕ) : Int) := by
      intro pr hpr
      rw [alookup_aupd]
      by_cases hcp : c = pr.1
      · rw [if_pos hcp]
        have hpe : pr = prc := entry_eq_of_nodup hnd hpr hprc (hcp.symm.trans hcc.symm)
        rw [hpe, hcc, hv1]
      · rw [if_neg hcp]
        rw [show es'.count pr.1 = (c :: es').count pr.1 from
          (List.count_cons_of_ne (fun h2 => hcp h2.symm) _).symm]
        exact hI pr hpr
    have hD2 : ∀ pr ∈ ip,
        (alookup (aupd st.ndepth c (max ((alookup st.ndepth c).getD 0) (d + 1))) pr.1).getD 0 =
        if es'.count pr.1 < L.count pr.1 then ndvalK (aupd A₀ n d) (P₀ ++ [n]) pr.2
        else ndvalK (aupd A₀ n d) P₀ pr.2 := by
      intro pr hpr
      rw [alookup_aupd]
      by_cases hcp : c = pr.1
      · rw [if_pos hcp]
        have hpe : pr = prc := entry_eq_of_nodup hnd hpr hprc (hcp.symm.trans hcc.symm)
        have hcnt : es'.count c + 1 ≤ L.count c := by
          have := hC c
          rw [List.count_cons_self] at this
          exact this
        have hcond : es'.count pr.1 < L.count pr.1 := by
          rw [hpe, hcc]
          omega
        rw [if_pos hcond]
        have hnin : n ∈ prc.2 := by
          by_contra hnot
          have hz := List.count_eq_zero_of_not_mem hnot
          have hLc := hL prc hprc
          rw [hcc, hz] at hLc
          omega
        have hdle : d + 1 ≤ ndvalK (aupd A₀ n d) (P₀ ++ [n]) prc.2 := by
          have hmem := foldr_max_le_mem prc.2
            (fun q => if q ∈ P₀ ++ [n] then (alookup (aupd A₀ n d) q).getD 0 + 1 else 0) n hnin
          have hmem2 : (if n ∈ P₀ ++ [n] then (alookup (aupd A₀ n d) n).getD 0 + 1 else 0) ≤
              ndvalK (aupd A₀ n d) (P₀ ++ [n]) prc.2 := hmem
          rw [if_pos (List.mem_append_right _ (List.mem_singleton_self _)),
            alookup_aupd, if_pos rfl] at hmem2
          exact hmem2
        have hold := hD prc hprc
        rw [hcc] at hold
        simp only [Option.getD_some]
        rw [hpe]
        by_cases holdc : (c :: es').count c < L.count c
        · rw [if_pos holdc] at hold
          rw [hold]
          exact Nat.max_eq_left hdle
        · rw [if_neg holdc] at hold
          rw [hold]
          rw [ndvalK_snoc A₀ P₀ n d hn prc.2, if_pos hnin]
      · rw [if_neg hcp]
        rw [show es'.count pr.1 = (c :: es').count pr.1 from
          (List.count_cons_of_ne (fun h2 => hcp h2.symm) _).symm]
        exact hD pr hpr
    have hC2 : ∀ x, es'.count x ≤ L.count x :=
      fun x => le_trans (count_le_cons x c es') (hC x)
    show KFoldInv ip n d L P₀ A₀ es'
      (if v - 1 = 0 then
        { st with queue := st.queue ++ [c],
                  indeg := aupd st.indeg c (v - 1),
                  ndepth := aupd st.ndepth c (max ((alookup st.ndepth c).getD 0) (d + 1)) }
       else
        { st with indeg := aupd st.indeg c (v - 1),
                  ndepth := aupd st.ndepth c (max ((alookup st.ndepth c).getD 0) (d + 1)) })
    by_cases henq : v - 1 = 0
    · rw [if_pos henq]
      refine ⟨hp, ha, ?_, ?_, ?_, hK2, hI2, ?_, hD2, hC2⟩
      · intro x hxm
        rcases List.mem_append.mp hxm with hxm | hxm
        · exact hQ x hxm
        · simp only [List.mem_singleton] at hxm
          rw [hxm]
          exact hcids
      · exact nodup_snoc hQnd hcQ.1
      · intro x hxm
        rcases List.mem_append.mp hxm with hxm | hxm
        · exact hQP x hxm
        · simp only [List.mem_singleton] at hxm
          rw [hxm]
          exact hcQ.2
      · intro pr hpr
        by_cases hcp : c = pr.1
        · have hpe : pr = prc := entry_eq_of_nodup hnd hpr hprc (hcp.symm.trans hcc.symm)
          constructor
          · intro _
            rw [hpe, hcc]
            exact hv0.mp henq
          · intro _
            exact Or.inl (List.mem_append_right _ (by
              simp only [List.mem_singleton]
              exact hcp.symm))
        · have hcnt : (c :: es').count pr.1 = es'.count pr.1 :=
            List.count_cons_of_ne (fun h2 => hcp h2.symm) _
          have h0 := hQ0 pr hpr
          rw [hcnt] at h0
          constructor
          · intro hor
            apply h0.mp
            rcases hor with hor | hor
            · rcases List.mem_append.mp hor with hor | hor
              · exact Or.inl hor
              · simp only [List.mem_singleton] at hor
                exact absurd hor.symm hcp
            · exact Or.inr hor
          · intro hz
            rcases h0.mpr hz with hor | hor
            · exact Or.inl (List.mem_append_left _ hor)
            · exact Or.inr hor
    · rw [if_neg henq]
      refine ⟨hp, ha, hQ, hQnd, hQP, hK2, hI2, ?_, hD2, hC2⟩
      intro pr hpr
      by_cases hcp : c = pr.1
      · have hpe : pr = prc := entry_eq_of_nodup hnd hpr hprc (hcp.symm.trans hcc.symm)
        constructor
        · intro hor
          rw [← hcp] at hor
          exact absurd hor (by
            intro hor2
            rcases hor2 with hor2 | hor2
            · exact hcQ.1 hor2
            · exact hcQ.2 hor2)
        · intro hz
          exfalso
          apply henq
          apply hv0.mpr
          rw [hpe, hcc] at hz
          exact hz
      · have hcnt : (c :: es').count pr.1 = es'.count pr.1 :=
          List.count_cons_of_ne (fun h2 => hcp h2.symm) _
        have h0 := hQ0 pr hpr
        rw [hcnt] at h0
        exact h0

theorem kahnChild_fold (ip : List (String × List String)) (n : String) (d : ℕ)
    (L P₀ : List String) (A₀ : List (String × ℕ))
    (hnd : (ip.map (·.1)).Nodup) (hn : n ∉ P₀)
    (hL : ∀ pr ∈ ip, L.count pr.1 = pr.2.count n) :
    ∀ (es : List String) (st : KState), KFoldInv ip n d L P₀ A₀ es st →
      KFoldInv ip n d L P₀ A₀ [] (es.foldl (kahnChild d) st) := by
  intro es
  induction es with
  | nil =>
    intro st h
    exact h
  | cons c es' ih =>
    intro st h
    rw [List.foldl_cons]
    exact ih _ (kahnChild_step ip n d L P₀ A₀ hnd hn hL c es' st h)

theorem kahnChild_queue_len (d : ℕ) (st : KState) (c : String) :
    st.queue.length ≤ (kahnChild d st c).queue.length := by
  unfold kahnChild
  split
  · exact le_refl _
  · rename_i v hx
    split
    · simp
    · exact le_refl _

theorem kahnFold_queue_len (d : ℕ) :
    ∀ (es : List String) (st : KState),
      st.queue.length ≤ ((es.foldl (kahnChild d) st)).queue.length := by
  intro es
  induction es with
  | nil => intro st; exact le_refl _
  | cons c es' ih =>
    intro st
    rw [List.foldl_cons]
    exact le_trans (kahnChild_queue_len d st c) (ih _)

/-- Reassembling the loop invariant from the fold invariant once every edge
occurrence of the drained node has been handled. -/
theorem kfold_to_kahnInv (ip : List (String × List String)) (n : String) (d : ℕ)
    (L P₀ : List String) (A₀ : List (String × ℕ)) (st3 : KState)
    (hnd : (ip.map (·.1)).Nodup) (hn : n ∉ P₀) (hnids : n ∈ ip.map (·.1))
    (hP₀ : ∀ x ∈ P₀, x ∈ ip.map (·.1)) (hPnd : P₀.Nodup) (hAk₀ : akeys A₀ = P₀)
    (hA₀ : ∀ pr ∈ ip, pr.1 ∈ P₀ →
      (∀ q ∈ pr.2, q ∈ P₀) ∧ alookup A₀ pr.1 = some (depthEq A₀ pr.2))
    (hLc : ∀ pr ∈ ip, L.count pr.1 = pr.2.count n)
    (hdn : ∀ pr ∈ ip, pr.1 = n → (∀ q ∈ pr.2, q ∈ P₀) ∧ d = depthEq A₀ pr.2)
    (hf : KFoldInv ip n d L P₀ A₀ [] st3) : KahnInv ip st3 := by
  obtain ⟨hp, ha, hQ, hQnd, hQP, hK, hI, hQ0, hD, hC⟩ := hf
  have hPn : ∀ x ∈ P₀ ++ [n], x ∈ ip.map (·.1) := by
    intro x hx
    rcases List.mem_append.mp hx with hx | hx
    · exact hP₀ x hx
    · simp only [List.mem_singleton] at hx
      rw [hx]
      exact hnids
  refine ⟨?_, hQ, ?_, hQnd, ?_, hK, ?_, ?_, ?_, ?_, ?_⟩
  · rw [hp]
    exact hPn
  · rw [hp]
    exact nodup_snoc hPnd hn
  · intro x hx
    rw [hp]
    exact hQP x hx
  · rw [ha, hp, aupd_absent d (by rw [hAk₀]; exact hn), akeys_append, hAk₀]
    rfl
  · intro pr hpr
    have := hI pr hpr
    rw [hp]
    simpa using this
  · intro pr hpr
    have := hQ0 pr hpr
    rw [hp]
    simpa using this
  · intro pr hpr
    have hd0 := hD pr hpr
    rw [hp, ha]
    by_cases hLp : (0 : ℕ) < L.count pr.1
    · rw [if_pos (by simpa using hLp)] at hd0
      exact hd0
    · rw [if_neg (by simpa using hLp)] at hd0
      have hzero : L.count pr.1 = 0 := by omega
      have hnin : n ∉ pr.2 := by
        intro hmem
        have hLc2 := hLc pr hpr
        rw [hzero] at hLc2
        have := List.count_eq_zero.mp hLc2.symm
        exact this hmem
      rw [hd0, ndvalK_snoc A₀ P₀ n d hn pr.2, if_neg hnin]
      exact (Nat.max_eq_left (Nat.zero_le _)).symm
  · intro pr hpr hmem
    rw [hp] at hmem
    rw [hp, ha]
    rcases List.mem_append.mp hmem with hmem | hmem
    · obtain ⟨hsub, hval⟩ := hA₀ pr hpr hmem
      have hne : pr.1 ≠ n := by
        intro hc
        rw [hc] at hmem
        exact hn hmem
      have hnps : n ∉ pr.2 := by
        intro hc
        exact hn (hsub n hc)
      constructor
      · intro q hq
        exact List.mem_append_left _ (hsub q hq)
      · rw [alookup_aupd, if_neg (fun hc => hne hc.symm), hval,
          depthEq_aupd_fresh A₀ n d pr.2 hnps]
    · simp only [List.mem_singleton] at hmem
      obtain ⟨hsub, hval⟩ := hdn pr hpr hmem
      have hnps : n ∉ pr.2 := by
        intro hc
        exact hn (hsub n hc)
      constructor
      · intro q hq
        exact List.mem_append_left _ (hsub q hq)
      · rw [hmem, alookup_aupd, if_pos rfl, depthEq_aupd_fresh A₀ n d pr.2 hnps, hval]

theorem kahnInv_bound (ip : List (String × List String)) (st : KState)
    (hinv : KahnInv ip st) :
    st.queue.length + 2 * st.processed.length ≤ 2 * ip.length := by
  have hnd2 : (st.queue ++ st.processed).Nodup := List.nodup_append.mpr
    ⟨hinv.hQnd, hinv.hPnd, by intro a ha hb; exact hinv.hQP a ha hb⟩
  have hsub : st.queue ++ st.processed ⊆ ip.map (·.1) := by
    intro x hx
    rcases List.mem_append.mp hx with hx | hx
    · exact hinv.hQ x hx
    · exact hinv.hP x hx
  have h1 := (List.subperm_of_subset hnd2 hsub).length_le
  have h2 := (List.subperm_of_subset hinv.hPnd (fun x hx => hinv.hP x hx)).length_le
  rw [List.length_append, List.length_map] at h1
  rw [List.length_map] at h2
  omega

/-- The Kahn drain loop: under the invariant and the multiplicity agreement
between edges and parents, enough fuel always drains the queue completely
while preserving the invariant. -/
theorem kahnLoop_run (ip : List (String × List String)) (g : List (String × EdgeList))
    (hnd : (ip.map (·.1)).Nodup)
    (hgL : ∀ n, ∀ pr ∈ ip, ((graphGet g n).map (·.1)).count pr.1 = pr.2.count n) :
    ∀ (f : ℕ) (st : KState), KahnInv ip st →
      2 * ip.length + 1 ≤ f + st.queue.length + 2 * st.processed.length →
      KahnInv ip (kahnLoop g f st) ∧ (kahnLoop g f st).queue = [] := by
  intro f
  induction f with
  | zero =>
    intro st hinv hfuel
    exact absurd hfuel (by have := kahnInv_bound ip st hinv; omega)
  | succ f ih =>
    intro st hinv hfuel
    unfold kahnLoop
    split
    · rename_i hq2
      exact ⟨hinv, hq2⟩
    · rename_i n q hq2
      have hnq : n ∈ st.queue := by
        rw [hq2]
        exact List.mem_cons_self _ _
      have hnp : n ∉ st.processed := hinv.hQP n hnq
      have hnids : n ∈ ip.map (·.1) := hinv.hQ n hnq
      show KahnInv ip (if n ∈ st.processed then kahnLoop g f { st with queue := q }
          else kahnLoop g f (((graphGet g n).map (·.1)).foldl
            (kahnChild ((alookup st.ndepth n).getD 0))
            { st with queue := q,
                      processed := st.processed ++ [n],
                      assigned := aupd st.assigned n ((alookup st.ndepth n).getD 0),
                      maxd := max st.maxd ((alookup st.ndepth n).getD 0) })) ∧
        (if n ∈ st.processed then kahnLoop g f { st with queue := q }
          else kahnLoop g f (((graphGet g n).map (·.1)).foldl
            (kahnChild ((alookup st.ndepth n).getD 0))
            { st with queue := q,
                      processed := st.processed ++ [n],
                      assigned := aupd st.assigned n ((alookup st.ndepth n).getD 0),
                      maxd := max st.maxd ((alookup st.ndepth n).getD 0) })).queue = []
      rw [if_neg hnp]
      obtain ⟨hP, hQ, hPnd, hQnd, hQP, hK, hAk, hI, hQ0, hD, hA⟩ := hinv
      have hqtail : ∀ x ∈ q, x ∈ st.queue := by
        intro x hx
        rw [hq2]
        exact List.mem_cons_of_mem _ hx
      have hq2nd : st.queue.Nodup := hQnd
      rw [hq2] at hq2nd
      have hpar : ∀ pr ∈ ip, pr.1 = n → ∀ x ∈ pr.2, x ∈ st.processed := by
        intro pr hpr hprn x hx
        have h0 := (hQ0 pr hpr).mp (Or.inl (by rw [hprn]; exact hnq))
        have := (pendK_zero_iff st.processed pr.2).mp h0
        exact this x hx
      have hdval : ∀ pr ∈ ip, pr.1 = n →
          (alookup st.ndepth n).getD 0 = depthEq st.assigned pr.2 := by
        intro pr hpr hprn
        rw [← hprn, hD pr hpr]
        exact ndvalK_all_in st.assigned st.processed pr.2 (hpar pr hpr hprn)
      have hinit : KFoldInv ip n ((alookup st.ndepth n).getD 0)
          ((graphGet g n).map (·.1)) st.processed st.assigned
          ((graphGet g n).map (·.1))
          { st with queue := q,
                    processed := st.processed ++ [n],
                    assigned := aupd st.assigned n ((alookup st.ndepth n).getD 0),
                    maxd := max st.maxd ((alookup st.ndepth n).getD 0) } := by
        refine ⟨rfl, rfl, ?_, ?_, ?_, hK, ?_, ?_, ?_, ?_⟩
        · intro x hx
          exact hQ x (hqtail x hx)
        · exact (List.nodup_cons.mp hq2nd).2
        · intro x hx
          intro hmem
          rcases List.mem_append.mp hmem with hmem | hmem
          · exact hQP x (hqtail x hx) hmem
          · simp only [List.mem_singleton] at hmem
            rw [hmem] at hx
            exact (List.nodup_cons.mp hq2nd).1 hx
        · intro pr hpr
          rw [hI pr hpr]
          congr 1
          congr 1
          rw [← pendK_snoc st.processed n hnp pr.2, hgL n pr hpr]
        · intro pr hpr
          rw [hgL n pr hpr, pendK_snoc st.processed n hnp pr.2]
          have h0 := hQ0 pr hpr
          constructor
          · intro hor
            apply h0.mp
            rcases hor with hor | hor
            · exact Or.inl (hqtail pr.1 hor)
            · rcases List.mem_append.mp hor with hor | hor
              · exact Or.inr hor
              · simp only [List.mem_singleton] at hor
                rw [hor]
                exact Or.inl hnq
          · intro hz
            rcases h0.mpr hz with hor | hor
            · rw [hq2] at hor
              rcases List.mem_cons.mp hor with hor | hor
              · exact Or.inr (List.mem_append_right _ (by
                  simp only [List.mem_singleton]
                  exact hor))
              · exact Or.inl hor
            · exact Or.inr (List.mem_append_left _ hor)
        · intro pr hpr
          rw [if_neg (by omega)]
          rw [hD pr hpr]
          exact (ndvalK_aupd_fresh st.assigned st.processed n _ hnp pr.2).symm
        · intro c
          exact le_refl _
      have hfold := kahnChild_fold ip n ((alookup st.ndepth n).getD 0)
        ((graphGet g n).map (·.1)) st.processed st.assigned hnd hnp
        (fun pr hpr => hgL n pr hpr) ((graphGet g n).map (·.1)) _ hinit
      have hinv3 := kfold_to_kahnInv ip n ((alookup st.ndepth n).getD 0)
        ((graphGet g n).map (·.1)) st.processed st.assigned _ hnd hnp hnids hP hPnd hAk
        hA (fun pr hpr => hgL n pr hpr)
        (fun pr hpr hprn => ⟨hpar pr hpr hprn, hdval pr hpr hprn⟩) hfold
      apply ih _ hinv3
      have hql := kahnFold_queue_len ((alookup st.ndepth n).getD 0)
        ((graphGet g n).map (·.1))
        { st with queue := q,
                  processed := st.processed ++ [n],
                  assigned := aupd st.assigned n ((alookup st.ndepth n).getD 0),
                  maxd := max st.maxd ((alookup st.ndepth n).getD 0) }
      have hpl : (((graphGet g n).map (·.1)).foldl
          (kahnChild ((alookup st.ndepth n).getD 0))
          { st with queue := q,
                    processed := st.processed ++ [n],
                    assigned := aupd st.assigned n ((alookup st.ndepth n).getD 0),
                    maxd := max st.maxd ((alookup st.ndepth n).getD 0) }).processed =
          st.processed ++ [n] := hfold.hp
      have hqst : st.queue.length = q.length + 1 := by
        rw [hq2]
        rfl
      rw [hpl]
      simp only [List.length_append, List.length_cons]
      have : q.length ≤ (((graphGet g n).map (·.1)).foldl
          (kahnChild ((alookup st.ndepth n).getD 0))
          { st with queue := q,
                    processed := st.processed ++ [n],
                    assigned := aupd st.assigned n ((alookup st.ndepth n).getD 0),
                    maxd := max st.maxd ((alookup st.ndepth n).getD 0) }).queue.length := hql
      omega

/-- The initial Kahn state satisfies the loop invariant. -/
theorem kahnInit_inv (ip : List (String × List String))
    (hnd : (ip.map (·.1)).Nodup) : KahnInv ip (kahnInit ip) := by
  have hroots : ∀ x, x ∈ ((ip.filter (fun p => p.2.isEmpty)).map (·.1)) ↔
      ∃ pr ∈ ip, pr.1 = x ∧ pr.2 = [] := by
    intro x
    constructor
    · intro hx
      obtain ⟨pr, hpr, hpre⟩ := List.mem_map.mp hx
      have h2 := List.mem_filter.mp hpr
      exact ⟨pr, h2.1, hpre, List.isEmpty_iff.mp h2.2⟩
    · rintro ⟨pr, hpr, hpre, hpe⟩
      apply List.mem_map.mpr
      refine ⟨pr, List.mem_filter.mpr ⟨hpr, ?_⟩, hpre⟩
      rw [hpe]
      rfl
  refine ⟨?_, ?_, ?_, ?_, ?_, ?_, ?_, ?_, ?_, ?_, ?_⟩
  · intro x hx
    exact absurd hx (List.not_mem_nil x)
  · intro x hx
    obtain ⟨pr, hpr, hpre, -⟩ := (hroots x).mp hx
    rw [← hpre]
    exact List.mem_map_of_mem _ hpr
  · exact List.nodup_nil
  · show (((ip.filter (fun p => p.2.isEmpty)).map (·.1))).Nodup
    exact List.Nodup.sublist (List.Sublist.map _ (List.filter_sublist ip)) hnd
  · intro x hx
    exact List.not_mem_nil x
  · show akeys (ip.map (fun p => (p.1, (p.2.length : Int)))) = ip.map (·.1)
    exact akeys_mapval (fun _ ps => ((ps.length : ℕ) : Int)) ip
  · rfl
  · intro pr hpr
    show alookup (ip.map (fun p => (p.1, (p.2.length : Int)))) pr.1 =
      some ((pendK [] pr.2 : ℕ) : Int)
    rw [alookup_mapval (fun _ ps => ((ps.length : ℕ) : Int)) ip pr.1,
      alookup_self_of_mem_nodup hnd hpr]
    simp only [Option.map_some']
    rw [pendK_nil]
  · intro pr hpr
    show (pr.1 ∈ ((ip.filter (fun p => p.2.isEmpty)).map (·.1)) ∨
      pr.1 ∈ ([] : List String)) ↔ pendK [] pr.2 = 0
    rw [pendK_nil]
    constructor
    · intro hor
      rcases hor with hor | hor
      · obtain ⟨pr2, hpr2, hpre2, hpe2⟩ := (hroots pr.1).mp hor
        have hpp : pr = pr2 := entry_eq_of_nodup hnd hpr hpr2 hpre2.symm
        rw [hpp, hpe2]
        rfl
      · simp at hor
    · intro hz
      have hpe : pr.2 = [] := List.length_eq_zero.mp hz
      exact Or.inl ((hroots pr.1).mpr ⟨pr, hpr, rfl, hpe⟩)
  · intro pr hpr
    show (alookup (((ip.filter (fun p => p.2.isEmpty)).map (·.1)).map
      (fun r => (r, 0))) pr.1).getD 0 = ndvalK [] [] pr.2
    rw [alookup_const_zero]
    exact (foldr_max_zero pr.2 _ (fun q _ => by
      rw [if_neg (List.not_mem_nil q)])).symm
  · intro pr hpr hmem
    exact absurd hmem (List.not_mem_nil _)

theorem list_exists_min_image {α : Type} (l : List α) (f : α → ℕ) (h : l ≠ []) :
    ∃ a ∈ l, ∀ b ∈ l, f a ≤ f b := by
  induction l with
  | nil => exact absurd rfl h
  | cons x t ih =>
    by_cases ht : t = []
    · subst ht
      refine ⟨x, List.mem_cons_self _ _, ?_⟩
      intro b hb
      rcases List.mem_cons.mp hb with hb | hb
      · rw [hb]
      · simp at hb
    · obtain ⟨a, ha, hmin⟩ := ih ht
      by_cases hc : f x ≤ f a
      · refine ⟨x, List.mem_cons_self _ _, ?_⟩
        intro b hb
        rcases List.mem_cons.mp hb with hb | hb
        · rw [hb]
        · exact le_trans hc (hmin b hb)
      · refine ⟨a, List.mem_cons_of_mem _ ha, ?_⟩
        intro b hb
        rcases List.mem_cons.mp hb with hb | hb
        · rw [hb]
          omega
        · exact hmin b hb

/-- Once the queue is drained, acyclicity of the parent relation forces every
node to have been processed: a rank-minimal unprocessed node would have all
its parents processed, hence pending count 0, hence be queued or processed. -/
theorem kahn_complete (ip : List (String × List String)) (st : KState)
    (hnd : (ip.map (·.1)).Nodup)
    (hpe : ∀ pr ∈ ip, ∀ q ∈ pr.2, q ∈ ip.map (·.1))
    (rk : String → ℕ) (hrank : ∀ pr ∈ ip, ∀ q ∈ pr.2, rk q < rk pr.1)
    (hinv : KahnInv ip st) (hq : st.queue = []) :
    ∀ pr ∈ ip, pr.1 ∈ st.processed := by
  by_contra hcon
  push_neg at hcon
  obtain ⟨pr0, hpr0, hnp0⟩ := hcon
  have hne : (ip.filter (fun pr => decide (pr.1 ∉ st.processed))) ≠ [] := by
    intro hnil
    have hm : pr0 ∈ ip.filter (fun pr => decide (pr.1 ∉ st.processed)) :=
      List.mem_filter.mpr ⟨hpr0, by simpa using hnp0⟩
    rw [hnil] at hm
    simp at hm
  obtain ⟨prm, hprm, hmin⟩ := list_exists_min_image
    (ip.filter (fun pr => decide (pr.1 ∉ st.processed))) (fun pr => rk pr.1) hne
  have hprm2 := List.mem_filter.mp hprm
  have hprmip : prm ∈ ip := hprm2.1
  have hprmnp : prm.1 ∉ st.processed := by simpa using hprm2.2
  have hall : ∀ q2 ∈ prm.2, q2 ∈ st.processed := by
    intro q2 hq2
    by_contra hq2n
    have hq2ids : q2 ∈ ip.map (·.1) := hpe prm hprmip q2 hq2
    obtain ⟨pr2, hpr2, hpr2e⟩ := List.mem_map.mp hq2ids
    have hpr2f : pr2 ∈ ip.filter (fun pr => decide (pr.1 ∉ st.processed)) :=
      List.mem_filter.mpr ⟨hpr2, by rw [hpr2e]; simpa using hq2n⟩
    have hge := hmin pr2 hpr2f
    rw [hpr2e] at hge
    have hlt := hrank prm hprmip q2 hq2
    omega
  have hpend : pendK st.processed prm.2 = 0 := (pendK_zero_iff _ _).mpr hall
  rcases (hinv.hQ0 prm hprmip).mpr hpend with h | h
  · rw [hq] at h
    simp at h
  · exact hprmnp h

/-- Correctness of the whole depth phase under unique keys, stored parents,
edge/parents multiplicity agreement, and an acyclicity rank: the resulting
depth map satisfies the specification's local depth equation at every
node. -/
theorem computeDepths_correct (ip : List (String × List String))
    (g : List (String × EdgeList))
    (hnd : (ip.map (·.1)).Nodup)
    (hpe : ∀ pr ∈ ip, ∀ q ∈ pr.2, q ∈ ip.map (·.1))
    (hgL : ∀ n, ∀ pr ∈ ip, ((graphGet g n).map (·.1)).count pr.1 = pr.2.count n)
    (rk : String → ℕ) (hrank : ∀ pr ∈ ip, ∀ q ∈ pr.2, rk q < rk pr.1) :
    ∀ pr ∈ ip, alookup (computeDepths ip g).1 pr.1 =
      some (depthEq (computeDepths ip g).1 pr.2) := by
  obtain ⟨hinvf, hqf⟩ := kahnLoop_run ip g hnd hgL (2 * ip.length + 1) (kahnInit ip)
    (kahnInit_inv ip hnd) (by omega)
  have hcomp := kahn_complete ip _ hnd hpe rk hrank hinvf hqf
  have hunp : ((ip.map (·.1)).filter
      (fun nid => decide (nid ∉ (kahnLoop g (2 * ip.length + 1) (kahnInit ip)).processed))) =
      [] := by
    rw [List.filter_eq_nil_iff]
    intro a ha
    obtain ⟨pr, hpr, hpre⟩ := List.mem_map.mp ha
    simp only [decide_eq_true_eq, not_not]
    rw [← hpre]
    exact hcomp pr hpr
  have hdm : (computeDepths ip g).1 =
      (kahnLoop g (2 * ip.length + 1) (kahnInit ip)).assigned := by
    unfold computeDepths
    simp only [hunp, List.foldl_nil]
  intro pr hpr
  rw [hdm]
  exact (hinvf.hA pr hpr (hcomp pr hpr)).2

theorem setNodeFields_depth (thr : ℕ) (ids : List String) (vm : List (String × ℚ))
    (g : List (String × EdgeList)) (dm : List (String × ℕ)) (nid : String)
    (nd : NodeRec) : (setNodeFields thr ids vm g dm nid nd).depth = (alookup dm nid).getD 0 :=
  rfl

theorem magreesB_to_magrees (net : Network) (h : MAgreesB net) : MAgrees net := by
  intro p c
  by_cases hp : p ∈ akeys net.graph ++ (net.nodes.map (fun q => q.2.parents)).flatten
  · by_cases hc : c ∈ akeys net.nodes ++ (net.graph.map (fun pe => pe.2.map (·.1))).flatten
    · exact h p hp c hc
    · have hcn : c ∉ akeys net.nodes ∧
          c ∉ (net.graph.map (fun pe => pe.2.map (·.1))).flatten :=
        ⟨fun h2 => hc (List.mem_append_left _ h2),
         fun h2 => hc (List.mem_append_right _ h2)⟩
      rw [List.countP_eq_zero.mpr (by
        intro e he
        simp only [decide_eq_true_eq]
        intro hec
        apply hcn.2
        cases hx : alookup net.graph p with
        | none =>
          rw [show graphGet net.graph p = [] from by unfold graphGet; rw [hx]; rfl] at he
          simp at he
        | some es =>
          have hes : e ∈ es := by
            rw [show graphGet net.graph p = es from by unfold graphGet; rw [hx]; rfl] at he
            exact he
          exact List.mem_flatten.mpr ⟨es.map (·.1),
            List.mem_map.mpr ⟨(p, es), alookup_mem hx, rfl⟩,
            by rw [← hec]; exact List.mem_map_of_mem _ hes⟩)]
      rw [(alookup_eq_none_iff net.nodes c).mpr hcn.1]
      rfl
  · have hpn : p ∉ akeys net.graph ∧
        p ∉ (net.nodes.map (fun q => q.2.parents)).flatten :=
      ⟨fun h2 => hp (List.mem_append_left _ h2),
       fun h2 => hp (List.mem_append_right _ h2)⟩
    rw [show graphGet net.graph p = [] from by
      unfold graphGet
      rw [(alookup_eq_none_iff net.graph p).mpr hpn.1]
      rfl]
    rw [show (([] : EdgeList)).countP (fun e => decide (e.1 = c)) = 0 from rfl]
    symm
    rw [List.count_eq_zero]
    intro hmem
    apply hpn.2
    cases hx : alookup net.nodes c with
    | none =>
      rw [hx] at hmem
      simp at hmem
    | some ndc =>
      rw [hx] at hmem
      simp only [Option.map_some', Option.getD_some] at hmem
      exact List.mem_flatten.mpr ⟨ndc.parents,
        List.mem_map.mpr ⟨(c, ndc), alookup_mem hx, rfl⟩, hmem⟩

/-- C4, the claimed depth law fails as stated: in `disNet` both nodes have
empty parent lists (so the parent relation is acyclic and all listed parents
exist), but the Kahn pass of the recompute propagates depth along the stored
`a → b` adjacency edge, so the parentless node `b` ends with depth 1, not
the claimed 0. -/
theorem claim_C4_counterexample :
    ((alookup (update_metrics disNet).nodes "b").map (·.parents)).getD ["x"] = [] ∧
    ((alookup (update_metrics disNet).nodes "b").map (·.depth)).getD 0 = 1 := by
  constructor
  · with_unfolding_all decide
  · with_unfolding_all decide

/-- C4 (amended): the recompute's depth pass follows adjacency edges, so the
claimed depth equations additionally need the graph and the parents lists to
agree (with multiplicity).  Under unique node keys, existing parents, the
multiplicity agreement and an acyclicity rank for the parent relation, every
node of the recomputed network satisfies them: depth 0 when the parents list
is empty, and `1 + max` over the parents' recomputed depths otherwise. -/
theorem claim_C4 (net : Network)
    (hnd : (nodeIds net).Nodup) (hpe : ParentsExist net) (hma : MAgrees net)
    (hrank : ∃ rk : String → ℕ, ∀ p ∈ net.nodes, ∀ q ∈ p.2.parents, rk q < rk p.1) :
    ∀ c nd, alookup (update_metrics net).nodes c = some nd →
      (nd.parents = [] → nd.depth = 0) ∧
      (nd.parents ≠ [] → nd.depth = (nd.parents.map (fun p =>
        ((alookup (update_metrics net).nodes p).map (·.depth)).getD 0)).foldr max 0 + 1) := by
  obtain ⟨rk, hrk⟩ := hrank
  by_cases hemp : net.nodes.isEmpty = true
  · intro c nd h
    have hnil : net.nodes = [] := List.isEmpty_iff.mp hemp
    have hupd : (update_metrics net).nodes = net.nodes := by
      unfold update_metrics
      rw [if_pos hemp]
    rw [hupd, hnil] at h
    exact absurd h (by simp [alookup])
  · have hemp2 : net.nodes.isEmpty = false := by
      cases hx : net.nodes.isEmpty
      · rfl
      · exact absurd hx hemp
    have hclean : cleanParents net = net := cleanParents_eq_self (by
      intro p hp q hq
      rw [alookup_isSome_iff]
      exact hpe p hp q hq)
    have hupd := update_metrics_eq net hemp2
    rw [hclean] at hupd
    have hkeys : akeys (idsParents net) = nodeIds net := by
      show akeys (net.nodes.map (fun p => (p.1, p.2.parents))) = akeys net.nodes
      exact akeys_mapval (fun (k : String) (nd : NodeRec) => nd.parents) net.nodes
    have hndip : ((idsParents net).map (·.1)).Nodup := by
      show (akeys (idsParents net)).Nodup
      rw [hkeys]
      exact hnd
    have hipl : ∀ x, alookup (idsParents net) x = (alookup net.nodes x).map (·.parents) := by
      intro x
      show alookup (net.nodes.map (fun p => (p.1, p.2.parents))) x = _
      exact alookup_mapval (fun (k : String) (nd : NodeRec) => nd.parents) net.nodes x
    have hpe2 : ∀ pr ∈ idsParents net, ∀ q ∈ pr.2, q ∈ (idsParents net).map (·.1) := by
      intro pr hpr q hq
      show q ∈ akeys (idsParents net)
      rw [hkeys]
      obtain ⟨p, hp, hpe3⟩ := List.mem_map.mp hpr
      rw [← hpe3] at hq
      exact hpe p hp q hq
    have hgL : ∀ n, ∀ pr ∈ idsParents net,
        ((graphGet net.graph n).map (·.1)).count pr.1 = pr.2.count n := by
      intro n pr hpr
      rw [count_map_fst, hma n pr.1]
      have hlook : alookup (idsParents net) pr.1 = some pr.2 :=
        alookup_self_of_mem_nodup hndip hpr
      have hpar : ((alookup net.nodes pr.1).map (·.parents)).getD [] = pr.2 := by
        rw [← hipl pr.1, hlook]
        rfl
      rw [hpar]
    have hrk2 : ∀ pr ∈ idsParents net, ∀ q ∈ pr.2, rk q < rk pr.1 := by
      intro pr hpr q hq
      obtain ⟨p, hp, hpe3⟩ := List.mem_map.mp hpr
      rw [← hpe3] at hq ⊢
      exact hrk p hp q hq
    have hcore := computeDepths_correct (idsParents net) net.graph hndip hpe2 hgL rk hrk2
    intro c nd h
    rw [hupd] at h
    have h2 : alookup (net.nodes.map (fun p => (p.1,
        setNodeFields net.min_children_threshold (akeys net.nodes) (valueMap net) net.graph
          (computeDepths (idsParents net) net.graph).1 p.1 p.2))) c = some nd := h
    rw [alookup_mapval (fun k nd0 => setNodeFields net.min_children_threshold
      (akeys net.nodes) (valueMap net) net.graph
      (computeDepths (idsParents net) net.graph).1 k nd0) net.nodes c] at h2
    cases hx : alookup net.nodes c with
    | none =>
      rw [hx] at h2
      simp at h2
    | some nd0 =>
      rw [hx] at h2
      simp only [Option.map_some', Option.some.injEq] at h2
      have hprip : (c, nd0.parents) ∈ idsParents net :=
        List.mem_map.mpr ⟨(c, nd0), alookup_mem hx, rfl⟩
      have hcc := hcore (c, nd0.parents) hprip
      subst h2
      constructor
      · intro hnp
        have hnp0 : nd0.parents = [] := hnp
        show (alookup (computeDepths (idsParents net) net.graph).1 c).getD 0 = 0
        rw [hcc, hnp0]
        simp [depthEq]
      · intro hnp
        have hnp0 : nd0.parents ≠ [] := hnp
        show (alookup (computeDepths (idsParents net) net.graph).1 c).getD 0 =
          (nd0.parents.map (fun p =>
            ((alookup (update_metrics net).nodes p).map (·.depth)).getD 0)).foldr max 0 + 1
        rw [hcc]
        simp only [Option.getD_some]
        unfold depthEq
        rw [if_neg hnp0]
        congr 1
        congr 1
        apply List.map_congr_left
        intro q hq
        have hq2 : q ∈ akeys (idsParents net) := hpe2 (c, nd0.parents) hprip q hq
        rw [hkeys] at hq2
        have hqs : (alookup net.nodes q).isSome = true := by
          rw [alookup_isSome_iff]
          exact hq2
        cases hxq : alookup net.nodes q with
        | none =>
          rw [hxq] at hqs
          simp at hqs
        | some ndq =>
          have hrl : alookup (update_metrics net).nodes q =
              some (setNodeFields net.min_children_threshold (akeys net.nodes) (valueMap net)
                net.graph (computeDepths (idsParents net) net.graph).1 q ndq) := by
            rw [hupd]
            show alookup (net.nodes.map (fun p => (p.1,
              setNodeFields net.min_children_threshold (akeys net.nodes) (valueMap net)
                net.graph (computeDepths (idsParents net) net.graph).1 p.1 p.2))) q = _
            rw [alookup_mapval (fun k nd0 => setNodeFields net.min_children_threshold
              (akeys net.nodes) (valueMap net) net.graph
              (computeDepths (idsParents net) net.graph).1 k nd0) net.nodes q, hxq]
            rfl
          rw [hrl]
          rfl

theorem claim_C4_witness :
    ∃ nd, alookup (update_metrics exTwo).nodes "root.1" = some nd ∧
      ((nd.parents = [] → nd.depth = 0) ∧
       (nd.parents ≠ [] → nd.depth = (nd.parents.map (fun p =>
         ((alookup (update_metrics exTwo).nodes p).map (·.depth)).getD 0)).foldr max 0 + 1)) := by
  cases h : alookup (update_metrics exTwo).nodes "root.1" with
  | none => exact absurd h (by with_unfolding_all decide)
  | some nd =>
    exact ⟨nd, rfl, claim_C4 exTwo (by with_unfolding_all decide)
      (by with_unfolding_all decide)
      (magreesB_to_magrees exTwo (by with_unfolding_all decide))
      ⟨fun s => s.length, by with_unfolding_all decide⟩ "root.1" nd h⟩

theorem claim_C9_witness :
    NetInv (okNet (add_node exRoot (some "root") none none)) := by
  have hinv : NetInv exRoot :=
    ⟨by with_unfolding_all decide, by with_unfolding_all decide,
     by with_unfolding_all decide,
     agreesB_to_agrees exRoot (by with_unfolding_all decide)⟩
  exact (claim_C9 exRoot hinv).1 (some "root") none none
    (okNet (add_node exRoot (some "root") none none)) "root.1"
    (by with_unfolding_all decide)

end BizNet
